import Mathlib

/-!
# Command autocomplete (`app/command_autocomplete.go`)

A shallow embedding of `GetSuggestions`, `getSuggestions`,
`parseInputTextArgument`, `parseStaticListArgument`,
`parseDynamicListArgument` and `parseListItems`, followed by theorems about
them.

Modelling conventions:

* A Go `string` is a sequence of bytes; it is embedded as `Str = List Char`,
  one list element per byte.  Every string operation of the file
  (`strings.Index`, `strings.HasPrefix`, `strings.TrimPrefix`, `len`, `+`,
  indexing and slicing) is byte-wise, so nothing depends on an encoding.
* Go `int` values are embedded as `Int`.  All of them are string lengths or
  offsets into a string, far from the 64-bit range, so no wrap-around is
  modelled.
* A run-time panic (slice or index out of range, failed type assertion) is the
  result `none`; a normal return `r` is `some r`.
* Pointers are embedded as the values they point to (no `nil` commands or
  arguments).  The namespace `Ptr` repeats the embedding over pointers that
  may be nil; the two agree on trees without a nil pointer
  (`ptr_getSuggestions_toPtrList`).
* `http.Get` followed by `AutocompleteStaticListItemsFromJSON` is a parameter:
  the field `fetch` of `App` maps a URL to `none` (`http.Get` returned an
  error) or to the item list that the decoder returns for the response (for a
  response that does not decode, the items it could read, possibly none).
  `model.SYSTEM_ADMIN_ROLE_ID` is the field `SYSTEM_ADMIN_ROLE_ID` of `App`.
-/

namespace CommandAutocomplete

/-- A Go string, one element per byte. -/
abbrev Str := List Char

/-! ## Go string primitives -/

/-- `strings.HasPrefix(s, pre)`. -/
def HasPrefix (s pre : Str) : Bool := pre.isPrefixOf s

/-- `strings.TrimPrefix(s, pre)`: `s` without the leading `pre`, or `s` itself
when `s` does not start with `pre`. -/
def TrimPrefix (s pre : Str) : Str :=
  if HasPrefix s pre then s.drop pre.length else s

/-- `strings.Index(s, substr)`: the offset of the first occurrence of `substr`
in `s`, or `-1` when there is none. -/
def Index (s substr : Str) : Int :=
  if HasPrefix s substr then 0
  else match s with
    | [] => -1
    | _ :: t => if Index t substr = -1 then -1 else Index t substr + 1

/-- `len(s)`. -/
def len (s : Str) : Int := (s.length : Int)

/-- The index expression `s[i]`; panics when `i` is out of range. -/
def byteAt (s : Str) (i : Int) : Option Char :=
  if 0 ≤ i ∧ i < len s then s.get? i.toNat else none

/-- The slice expression `s[:hi]`; panics when `hi` is out of range. -/
def sliceTo (s : Str) (hi : Int) : Option Str :=
  if 0 ≤ hi ∧ hi ≤ len s then some (s.take hi.toNat) else none

/-- The slice expression `s[lo:]`; panics when `lo` is out of range. -/
def sliceFrom (s : Str) (lo : Int) : Option Str :=
  if 0 ≤ lo ∧ lo ≤ len s then some (s.drop lo.toNat) else none

/-! ## Data model (package `model`) -/

/-- `model.AutocompleteSuggestion`. -/
structure AutocompleteSuggestion where
  Suggestion : Str
  Hint : Str
  Description : Str
  deriving DecidableEq, Repr

/-- `model.AutocompleteStaticListItem`. -/
structure AutocompleteStaticListItem where
  Item : Str
  Hint : Str
  HelpText : Str
  deriving DecidableEq, Repr

/-- Modelled from the spec: the declared kind of an argument
(`model.AutocompleteArgType` and its three constants are declared outside this
file); `Other` stands for any value that is none of the three constants. -/
inductive AutocompleteArgType where
  | TextInput
  | StaticList
  | DynamicList
  | Other
  deriving DecidableEq, Repr

/-- Modelled from the spec: the dynamic value held by the `Data interface{}`
field of an argument: a `*model.AutocompleteTextArg`, a
`*model.AutocompleteStaticListArg`, a `*model.AutocompleteDynamicListArg`, or
anything else. -/
inductive ArgData where
  | TextArg (Hint : Str) (Pattern : Str)
  | StaticListArg (PossibleArguments : List AutocompleteStaticListItem)
  | DynamicListArg (FetchURL : Str)
  | Other
  deriving DecidableEq, Repr

/-- `model.AutocompleteArg`; the field `Type` is written `Type_`. -/
structure AutocompleteArg where
  Name : Str
  HelpText : Str
  Type_ : AutocompleteArgType
  Required : Bool
  Data : ArgData
  deriving DecidableEq, Repr

/-- `model.AutocompleteData`: a node of the command tree. -/
inductive AutocompleteData where
  | mk (Trigger : Str) (Hint : Str) (HelpText : Str) (RoleID : Str)
      (Arguments : List AutocompleteArg) (SubCommands : List AutocompleteData)

namespace AutocompleteData

/-- Field `Trigger`. -/
def Trigger : AutocompleteData → Str
  | mk t _ _ _ _ _ => t

/-- Field `Hint`. -/
def Hint : AutocompleteData → Str
  | mk _ h _ _ _ _ => h

/-- Field `HelpText`. -/
def HelpText : AutocompleteData → Str
  | mk _ _ h _ _ _ => h

/-- Field `RoleID`. -/
def RoleID : AutocompleteData → Str
  | mk _ _ _ r _ _ => r

/-- Field `Arguments`. -/
def Arguments : AutocompleteData → List AutocompleteArg
  | mk _ _ _ _ a _ => a

/-- Field `SubCommands`. -/
def SubCommands : AutocompleteData → List AutocompleteData
  | mk _ _ _ _ _ s => s

end AutocompleteData

/-- The receiver `a *App`, reduced to what the file reads from it and from its
surroundings: the admin role constant and the outcome of fetching a dynamic
list (`none`: `http.Get` returned an error). -/
structure App where
  SYSTEM_ADMIN_ROLE_ID : Str
  fetch : Str → Option (List AutocompleteStaticListItem)

/-- The result tuple `(found, alreadyParsed, yetToBeParsed, suggestions)` of
the list parsers. -/
abbrev ListResult := Bool × Str × Str × List AutocompleteSuggestion

/-- The result tuple `(found, alreadyParsed, yetToBeParsed, suggestion)` of
the text parser. -/
abbrev TextResult := Bool × Str × Str × AutocompleteSuggestion

/-- The zero value `model.AutocompleteSuggestion{}`. -/
def emptySuggestion : AutocompleteSuggestion := ⟨[], [], []⟩

/-! ## The parsers -/

/-- `parseInputTextArgument(arg, parsed, toBeParsed)`. -/
def parseInputTextArgument (arg : AutocompleteArg) (parsed toBeParsed : Str) :
    Option TextResult :=
  let inp := TrimPrefix toBeParsed [' ']
  match arg.Data with
  | .TextArg hint _ =>
    if len inp = 0 then
      some (true, parsed ++ toBeParsed, [],
        ⟨parsed ++ toBeParsed, hint, arg.HelpText⟩)
    else do
      let c0 ← byteAt inp 0
      if c0 = '"' then do
        let tl ← sliceFrom inp 1
        let indexOfSecondQuote := Index tl ['"']
        if indexOfSecondQuote = -1 then
          some (true, parsed ++ toBeParsed, [],
            ⟨parsed ++ toBeParsed, hint, arg.HelpText⟩)
        else do
          let isSpace ←
            if len inp > indexOfSecondQuote + 2 then
              (byteAt inp (indexOfSecondQuote + 2)).map (fun c => decide (c = ' '))
            else some false
          let offset : Int := if isSpace then 3 else 2
          let consumed ← sliceTo inp (indexOfSecondQuote + offset)
          let remaining ← sliceFrom inp (indexOfSecondQuote + offset)
          some (false, parsed ++ consumed, remaining, emptySuggestion)
      else
        let index := Index inp [' ']
        if index = -1 then
          some (true, parsed ++ toBeParsed, [],
            ⟨parsed ++ toBeParsed, hint, arg.HelpText⟩)
        else do
          let consumed ← sliceTo inp (index + 1)
          let remaining ← sliceFrom inp (index + 1)
          some (false, parsed ++ consumed, remaining, emptySuggestion)
  | _ => none

/-- The first loop of `parseListItems`: the running value of `maxPrefix`. -/
def maxPrefixLoop (inp : Str) : List AutocompleteStaticListItem → Str → Str
  | [], maxPrefix => maxPrefix
  | arg :: rest, maxPrefix =>
    if HasPrefix inp (arg.Item ++ [' ']) && decide (len maxPrefix < len arg.Item + 1) then
      maxPrefixLoop inp rest (arg.Item ++ [' '])
    else
      maxPrefixLoop inp rest maxPrefix

/-- The second loop of `parseListItems`: the running value of `suggestions`. -/
def suggestLoop (helpText parsed inp : Str) :
    List AutocompleteStaticListItem → List AutocompleteSuggestion →
    List AutocompleteSuggestion
  | [], suggestions => suggestions
  | arg :: rest, suggestions =>
    if HasPrefix arg.Item inp then
      suggestLoop helpText parsed inp rest
        (suggestions ++ [⟨parsed ++ arg.Item, arg.Hint, helpText⟩])
    else
      suggestLoop helpText parsed inp rest suggestions

/-- `parseListItems(items, helpText, parsed, toBeParsed)`. -/
def parseListItems (items : List AutocompleteStaticListItem)
    (helpText parsed toBeParsed : Str) : Option ListResult :=
  let inp := TrimPrefix toBeParsed [' ']
  let maxPrefix := maxPrefixLoop inp items []
  if maxPrefix ≠ [] then do
    let consumed ← sliceTo inp (len maxPrefix)
    let remaining ← sliceFrom inp (len maxPrefix)
    some (false, parsed ++ consumed, remaining, [])
  else
    some (true, parsed ++ toBeParsed, [], suggestLoop helpText parsed inp items [])

/-- `parseStaticListArgument(arg, parsed, toBeParsed)`. -/
def parseStaticListArgument (arg : AutocompleteArg) (parsed toBeParsed : Str) :
    Option ListResult :=
  match arg.Data with
  | .StaticListArg possibleArguments =>
    parseListItems possibleArguments arg.HelpText parsed toBeParsed
  | _ => none

/-- `(a *App).parseDynamicListArgument(arg, parsed, toBeParsed)`. -/
def parseDynamicListArgument (a : App) (arg : AutocompleteArg)
    (parsed toBeParsed : Str) : Option ListResult :=
  match arg.Data with
  | .DynamicListArg fetchURL =>
    match a.fetch fetchURL with
    | none => some (false, parsed, toBeParsed, [])
    | some listItems => parseListItems listItems arg.HelpText parsed toBeParsed
  | _ => none

/-! ## The command matcher -/

/-- The loop of `getSuggestions` taken when the input holds no space
(`index == -1`): the running value of `suggestions`. -/
def noSpaceLoop (a : App) (inputParsed inputToBeParsed roleID : Str) :
    List AutocompleteData → List AutocompleteSuggestion →
    List AutocompleteSuggestion
  | [], suggestions => suggestions
  | command :: rest, suggestions =>
    if HasPrefix command.Trigger inputToBeParsed &&
        (command.RoleID == roleID || roleID == a.SYSTEM_ADMIN_ROLE_ID ||
          roleID == []) then
      noSpaceLoop a inputParsed inputToBeParsed roleID rest
        (suggestions ++
          [⟨inputParsed ++ command.Trigger, command.Hint, command.HelpText⟩])
    else
      noSpaceLoop a inputParsed inputToBeParsed roleID rest suggestions

/-- The loop `for _, arg := range command.Arguments` of `getSuggestions`, with
the loop-carried variables `parsed`, `toBeParsed` and `suggestions`; the result
is the value of `suggestions` when the loop is left (by `break` or at its
end). -/
def argumentsLoop (a : App) :
    List AutocompleteArg → Str → Str → List AutocompleteSuggestion →
    Option (List AutocompleteSuggestion)
  | [], _, _, suggestions => some suggestions
  | arg :: rest, parsed, toBeParsed, suggestions =>
    if arg.Name = [] then
      match arg.Type_ with
      | .TextInput => do
        let (found, changedParsed, changedToBeParsed, suggestion) ←
          parseInputTextArgument arg parsed toBeParsed
        if found then some (suggestions ++ [suggestion])
        else argumentsLoop a rest changedParsed changedToBeParsed suggestions
      | .StaticList => do
        let (found, changedParsed, changedToBeParsed, staticListsuggestions) ←
          parseStaticListArgument arg parsed toBeParsed
        if found then some (suggestions ++ staticListsuggestions)
        else argumentsLoop a rest changedParsed changedToBeParsed suggestions
      | .DynamicList => do
        let (found, changedParsed, changedToBeParsed, dynamicListsuggestions) ←
          parseDynamicListArgument a arg parsed toBeParsed
        if found then some (suggestions ++ dynamicListsuggestions)
        else argumentsLoop a rest changedParsed changedToBeParsed suggestions
      | .Other => argumentsLoop a rest parsed toBeParsed suggestions
    else
      argumentsLoop a rest parsed toBeParsed suggestions

mutual

/-- One iteration of the second loop of `getSuggestions` (the input holds a
space at `index`), for the command `command`: the value of `suggestions` after
the iteration.  The recursive call `a.getSuggestions(command.SubCommands,
parsed, toBeParsed, roleID)` stands here with the body of `getSuggestions`
written out, which makes the recursion structural; `getSuggestions_subCommands`
states that it is that call. -/
def commandStep (a : App) :
    AutocompleteData → Str → Str → Str → Int → List AutocompleteSuggestion →
    Option (List AutocompleteSuggestion)
  | .mk trigger _ _ commandRoleID arguments subCommands,
      inputParsed, inputToBeParsed, roleID, index, suggestions => do
    let firstToken ← sliceTo inputToBeParsed index
    if trigger ≠ firstToken then some suggestions
    else if roleID ≠ [] ∧ roleID ≠ a.SYSTEM_ADMIN_ROLE_ID ∧ roleID ≠ commandRoleID then
      some suggestions
    else do
      let toBeParsed ← sliceFrom inputToBeParsed (index + 1)
      let consumed ← sliceTo inputToBeParsed (index + 1)
      let parsed := inputParsed ++ consumed
      if arguments.length = 0 then do
        let subSuggestions ←
          if Index toBeParsed [' '] = -1 then
            some (noSpaceLoop a parsed toBeParsed roleID subCommands [])
          else
            commandsLoop a subCommands parsed toBeParsed roleID
              (Index toBeParsed [' ']) []
        some (suggestions ++ subSuggestions)
      else
        argumentsLoop a arguments parsed toBeParsed suggestions

/-- The second loop of `getSuggestions`, `for _, command := range commands`,
with the loop-carried variable `suggestions`. -/
def commandsLoop (a : App) :
    List AutocompleteData → Str → Str → Str → Int → List AutocompleteSuggestion →
    Option (List AutocompleteSuggestion)
  | [], _, _, _, _, suggestions => some suggestions
  | command :: rest, inputParsed, inputToBeParsed, roleID, index, suggestions => do
    let suggestions ←
      commandStep a command inputParsed inputToBeParsed roleID index suggestions
    commandsLoop a rest inputParsed inputToBeParsed roleID index suggestions

end

/-- `(a *App).getSuggestions(commands, inputParsed, inputToBeParsed, roleID)`. -/
def getSuggestions (a : App) (commands : List AutocompleteData)
    (inputParsed inputToBeParsed roleID : Str) :
    Option (List AutocompleteSuggestion) :=
  let index := Index inputToBeParsed [' ']
  if index = -1 then
    some (noSpaceLoop a inputParsed inputToBeParsed roleID commands [])
  else
    commandsLoop a commands inputParsed inputToBeParsed roleID index []

/-- `(a *App).GetSuggestions(commands, userInput, roleID)`. -/
def GetSuggestions (a : App) (commands : List AutocompleteData)
    (userInput roleID : Str) : Option (List AutocompleteSuggestion) :=
  getSuggestions a commands [] userInput roleID

/-! ## Reference definitions used to state the theorems -/

/-- The no-space loop with the role check left out: every command whose
trigger starts with the input is suggested. -/
def noSpaceLoopAnyRole (inputParsed inputToBeParsed : Str) :
    List AutocompleteData → List AutocompleteSuggestion →
    List AutocompleteSuggestion
  | [], suggestions => suggestions
  | command :: rest, suggestions =>
    if HasPrefix command.Trigger inputToBeParsed then
      noSpaceLoopAnyRole inputParsed inputToBeParsed rest
        (suggestions ++
          [⟨inputParsed ++ command.Trigger, command.Hint, command.HelpText⟩])
    else
      noSpaceLoopAnyRole inputParsed inputToBeParsed rest suggestions

mutual

/-- The iteration `commandStep` with the role check left out. -/
def commandStepAnyRole (a : App) :
    AutocompleteData → Str → Str → Int → List AutocompleteSuggestion →
    Option (List AutocompleteSuggestion)
  | .mk trigger _ _ _ arguments subCommands,
      inputParsed, inputToBeParsed, index, suggestions => do
    let firstToken ← sliceTo inputToBeParsed index
    if trigger ≠ firstToken then some suggestions
    else do
      let toBeParsed ← sliceFrom inputToBeParsed (index + 1)
      let consumed ← sliceTo inputToBeParsed (index + 1)
      let parsed := inputParsed ++ consumed
      if arguments.length = 0 then do
        let subSuggestions ←
          if Index toBeParsed [' '] = -1 then
            some (noSpaceLoopAnyRole parsed toBeParsed subCommands [])
          else
            commandsLoopAnyRole a subCommands parsed toBeParsed
              (Index toBeParsed [' ']) []
        some (suggestions ++ subSuggestions)
      else
        argumentsLoop a arguments parsed toBeParsed suggestions

/-- The loop `commandsLoop` with the role check left out. -/
def commandsLoopAnyRole (a : App) :
    List AutocompleteData → Str → Str → Int → List AutocompleteSuggestion →
    Option (List AutocompleteSuggestion)
  | [], _, _, _, suggestions => some suggestions
  | command :: rest, inputParsed, inputToBeParsed, index, suggestions => do
    let suggestions ←
      commandStepAnyRole a command inputParsed inputToBeParsed index suggestions
    commandsLoopAnyRole a rest inputParsed inputToBeParsed index suggestions

end

/-- The matcher `getSuggestions` with the role check ignored at every level of
the descent: it takes no role. -/
def getSuggestionsAnyRole (a : App) (commands : List AutocompleteData)
    (inputParsed inputToBeParsed : Str) : Option (List AutocompleteSuggestion) :=
  let index := Index inputToBeParsed [' ']
  if index = -1 then
    some (noSpaceLoopAnyRole inputParsed inputToBeParsed commands [])
  else
    commandsLoopAnyRole a commands inputParsed inputToBeParsed index []

mutual

/-- The node `c` with every descendant whose `RoleID` differs from `role`
removed. -/
def keepRoleNode (role : Str) : AutocompleteData → AutocompleteData
  | .mk trigger hint helpText commandRoleID arguments subCommands =>
    .mk trigger hint helpText commandRoleID arguments (keepRoleList role subCommands)

/-- The command list with every node whose `RoleID` differs from `role`
removed, here and recursively in every sub-command list that remains. -/
def keepRoleList (role : Str) : List AutocompleteData → List AutocompleteData
  | [] => []
  | c :: rest =>
    if c.RoleID = role then keepRoleNode role c :: keepRoleList role rest
    else keepRoleList role rest

end

/-- The token of a text argument is unfinished: the input `inp` (the text to
be parsed minus one leading space) is empty, or starts with a quote and holds
no further quote, or does not start with a quote and holds no space. -/
def TextUnfinished (inp : Str) : Prop :=
  inp = [] ∨ (inp.head? = some '"' ∧ '"' ∉ inp.tail) ∨
    (inp.head? ≠ some '"' ∧ ' ' ∉ inp)

instance (inp : Str) : Decidable (TextUnfinished inp) := by
  unfold TextUnfinished; infer_instance

/-- One argument of a node attempted against the state `parsed`, `toBeParsed`,
as the body of the argument loop of `getSuggestions` does it: a positional
argument goes to the parser of its kind, and the result is `(incomplete,
alreadyParsed, yetToBeParsed, suggestions)`; a named argument, or one of no
known kind, leaves the state as it is and suggests nothing. -/
def parseArgument (a : App) (arg : AutocompleteArg) (parsed toBeParsed : Str) :
    Option ListResult :=
  if arg.Name = [] then
    match arg.Type_ with
    | .TextInput =>
      (parseInputTextArgument arg parsed toBeParsed).map
        (fun r => (r.1, r.2.1, r.2.2.1, if r.1 then [r.2.2.2] else []))
    | .StaticList => parseStaticListArgument arg parsed toBeParsed
    | .DynamicList => parseDynamicListArgument a arg parsed toBeParsed
    | .Other => some (false, parsed, toBeParsed, [])
  else some (false, parsed, toBeParsed, [])

/-- The state left when the arguments `args` are attempted in sequence, each
against the state left by the one before, and every one of them reports
complete; `none` when one of them reports incomplete or panics. -/
def completeThrough (a : App) : List AutocompleteArg → Str → Str → Option (Str × Str)
  | [], parsed, toBeParsed => some (parsed, toBeParsed)
  | arg :: rest, parsed, toBeParsed =>
    match parseArgument a arg parsed toBeParsed with
    | some (false, changedParsed, changedToBeParsed, _) =>
      completeThrough a rest changedParsed changedToBeParsed
    | _ => none

/-- The payload of the argument has the kind its `Type` declares: a text
argument holds a `*AutocompleteTextArg`, a static list argument a
`*AutocompleteStaticListArg`, a dynamic list argument a
`*AutocompleteDynamicListArg`; an argument of no known kind is not
constrained. -/
def argWellFormed (arg : AutocompleteArg) : Bool :=
  match arg.Type_, arg.Data with
  | .TextInput, .TextArg _ _ => true
  | .StaticList, .StaticListArg _ => true
  | .DynamicList, .DynamicListArg _ => true
  | .Other, _ => true
  | _, _ => false

mutual

/-- Every argument of the node and of its descendants is well formed. -/
def wellFormedNode : AutocompleteData → Bool
  | .mk _ _ _ _ arguments subCommands =>
    arguments.all argWellFormed && wellFormedList subCommands

/-- Every argument in the command tree is well formed. -/
def wellFormedList : List AutocompleteData → Bool
  | [] => true
  | c :: rest => wellFormedNode c && wellFormedList rest

end

/-! ## The same functions over trees that may hold nil pointers

The definitions above take every pointer as the value it points to.  The
namespace `Ptr` embeds the same source lines over the pointers themselves: a
`*model.AutocompleteData`, a `*model.AutocompleteArg` and the pointer held by
`Data` may each be nil, and a nil pointer dereference is a panic (`none`). -/

namespace Ptr

/-- The value of the `Data interface{}` field together with the pointer it
holds: for each of the three payload types the struct the pointer points to
(`none` for a nil pointer of that type); `Other` is anything else. -/
inductive ArgData where
  | TextArg (target : Option (Str × Str))
  | StaticListArg (target : Option (List AutocompleteStaticListItem))
  | DynamicListArg (target : Option Str)
  | Other
  deriving DecidableEq, Repr

/-- The struct `model.AutocompleteArg` behind a non-nil pointer; the field
`Type` is written `Type_`. -/
structure AutocompleteArg where
  Name : Str
  HelpText : Str
  Type_ : AutocompleteArgType
  Required : Bool
  Data : ArgData
  deriving DecidableEq, Repr

/-- A `*model.AutocompleteData`: the nil pointer, or a pointer to a node with
its fields; the elements of `Arguments` are `*model.AutocompleteArg` (`none`
for nil) and those of `SubCommands` are `*model.AutocompleteData` again. -/
inductive AutocompleteData where
  | nil
  | ref (Trigger : Str) (Hint : Str) (HelpText : Str) (RoleID : Str)
      (Arguments : List (Option AutocompleteArg)) (SubCommands : List AutocompleteData)

/-- `parseInputTextArgument(arg, parsed, toBeParsed)`, `arg` not nil; `a.Hint`
is read where a suggestion is built, and panics there on a nil `a`. -/
def parseInputTextArgument (arg : AutocompleteArg) (parsed toBeParsed : Str) :
    Option TextResult :=
  let inp := TrimPrefix toBeParsed [' ']
  match arg.Data with
  | .TextArg target =>
    if len inp = 0 then
      target.map (fun a => (true, parsed ++ toBeParsed, [],
        ⟨parsed ++ toBeParsed, a.1, arg.HelpText⟩))
    else do
      let c0 ← byteAt inp 0
      if c0 = '"' then do
        let tl ← sliceFrom inp 1
        let indexOfSecondQuote := Index tl ['"']
        if indexOfSecondQuote = -1 then
          target.map (fun a => (true, parsed ++ toBeParsed, [],
            ⟨parsed ++ toBeParsed, a.1, arg.HelpText⟩))
        else do
          let isSpace ←
            if len inp > indexOfSecondQuote + 2 then
              (byteAt inp (indexOfSecondQuote + 2)).map (fun c => decide (c = ' '))
            else some false
          let offset : Int := if isSpace then 3 else 2
          let consumed ← sliceTo inp (indexOfSecondQuote + offset)
          let remaining ← sliceFrom inp (indexOfSecondQuote + offset)
          some (false, parsed ++ consumed, remaining, emptySuggestion)
      else
        let index := Index inp [' ']
        if index = -1 then
          target.map (fun a => (true, parsed ++ toBeParsed, [],
            ⟨parsed ++ toBeParsed, a.1, arg.HelpText⟩))
        else do
          let consumed ← sliceTo inp (index + 1)
          let remaining ← sliceFrom inp (index + 1)
          some (false, parsed ++ consumed, remaining, emptySuggestion)
  | _ => none

/-- `parseStaticListArgument(arg, parsed, toBeParsed)`, `arg` not nil;
`a.PossibleArguments` panics on a nil `a`. -/
def parseStaticListArgument (arg : AutocompleteArg) (parsed toBeParsed : Str) :
    Option ListResult :=
  match arg.Data with
  | .StaticListArg (some possibleArguments) =>
    parseListItems possibleArguments arg.HelpText parsed toBeParsed
  | _ => none

/-- `(a *App).parseDynamicListArgument(arg, parsed, toBeParsed)`, `arg` not
nil; `dynamicArg.FetchURL` panics on a nil `dynamicArg`. -/
def parseDynamicListArgument (a : App) (arg : AutocompleteArg)
    (parsed toBeParsed : Str) : Option ListResult :=
  match arg.Data with
  | .DynamicListArg (some fetchURL) =>
    match a.fetch fetchURL with
    | none => some (false, parsed, toBeParsed, [])
    | some listItems => parseListItems listItems arg.HelpText parsed toBeParsed
  | _ => none

/-- The loop of `getSuggestions` taken when the input holds no space;
`command.Trigger` panics on a nil `command`. -/
def noSpaceLoop (a : App) (inputParsed inputToBeParsed roleID : Str) :
    List AutocompleteData → List AutocompleteSuggestion →
    Option (List AutocompleteSuggestion)
  | [], suggestions => some suggestions
  | .nil :: _, _ => none
  | .ref trigger hint helpText commandRoleID _ _ :: rest, suggestions =>
    if HasPrefix trigger inputToBeParsed &&
        (commandRoleID == roleID || roleID == a.SYSTEM_ADMIN_ROLE_ID ||
          roleID == []) then
      noSpaceLoop a inputParsed inputToBeParsed roleID rest
        (suggestions ++ [⟨inputParsed ++ trigger, hint, helpText⟩])
    else
      noSpaceLoop a inputParsed inputToBeParsed roleID rest suggestions

/-- The loop `for _, arg := range command.Arguments` of `getSuggestions`;
`arg.Name` panics on a nil `arg`. -/
def argumentsLoop (a : App) :
    List (Option AutocompleteArg) → Str → Str → List AutocompleteSuggestion →
    Option (List AutocompleteSuggestion)
  | [], _, _, suggestions => some suggestions
  | none :: _, _, _, _ => none
  | some arg :: rest, parsed, toBeParsed, suggestions =>
    if arg.Name = [] then
      match arg.Type_ with
      | .TextInput => do
        let (found, changedParsed, changedToBeParsed, suggestion) ←
          parseInputTextArgument arg parsed toBeParsed
        if found then some (suggestions ++ [suggestion])
        else argumentsLoop a rest changedParsed changedToBeParsed suggestions
      | .StaticList => do
        let (found, changedParsed, changedToBeParsed, staticListsuggestions) ←
          parseStaticListArgument arg parsed toBeParsed
        if found then some (suggestions ++ staticListsuggestions)
        else argumentsLoop a rest changedParsed changedToBeParsed suggestions
      | .DynamicList => do
        let (found, changedParsed, changedToBeParsed, dynamicListsuggestions) ←
          parseDynamicListArgument a arg parsed toBeParsed
        if found then some (suggestions ++ dynamicListsuggestions)
        else argumentsLoop a rest changedParsed changedToBeParsed suggestions
      | .Other => argumentsLoop a rest parsed toBeParsed suggestions
    else
      argumentsLoop a rest parsed toBeParsed suggestions

mutual

/-- One iteration of the second loop of `getSuggestions`, with the recursive
call written out as in `CommandAutocomplete.commandStep`; `command.Trigger`
panics on a nil `command`. -/
def commandStep (a : App) :
    AutocompleteData → Str → Str → Str → Int → List AutocompleteSuggestion →
    Option (List AutocompleteSuggestion)
  | .nil, _, _, _, _, _ => none
  | .ref trigger _ _ commandRoleID arguments subCommands,
      inputParsed, inputToBeParsed, roleID, index, suggestions => do
    let firstToken ← sliceTo inputToBeParsed index
    if trigger ≠ firstToken then some suggestions
    else if roleID ≠ [] ∧ roleID ≠ a.SYSTEM_ADMIN_ROLE_ID ∧ roleID ≠ commandRoleID then
      some suggestions
    else do
      let toBeParsed ← sliceFrom inputToBeParsed (index + 1)
      let consumed ← sliceTo inputToBeParsed (index + 1)
      let parsed := inputParsed ++ consumed
      if arguments.length = 0 then do
        let subSuggestions ←
          if Index toBeParsed [' '] = -1 then
            noSpaceLoop a parsed toBeParsed roleID subCommands []
          else
            commandsLoop a subCommands parsed toBeParsed roleID
              (Index toBeParsed [' ']) []
        some (suggestions ++ subSuggestions)
      else
        argumentsLoop a arguments parsed toBeParsed suggestions

/-- The second loop of `getSuggestions`, `for _, command := range commands`. -/
def commandsLoop (a : App) :
    List AutocompleteData → Str → Str → Str → Int → List AutocompleteSuggestion →
    Option (List AutocompleteSuggestion)
  | [], _, _, _, _, suggestions => some suggestions
  | command :: rest, inputParsed, inputToBeParsed, roleID, index, suggestions => do
    let suggestions ←
      commandStep a command inputParsed inputToBeParsed roleID index suggestions
    commandsLoop a rest inputParsed inputToBeParsed roleID index suggestions

end

/-- `(a *App).getSuggestions(commands, inputParsed, inputToBeParsed, roleID)`. -/
def getSuggestions (a : App) (commands : List AutocompleteData)
    (inputParsed inputToBeParsed roleID : Str) :
    Option (List AutocompleteSuggestion) :=
  let index := Index inputToBeParsed [' ']
  if index = -1 then
    noSpaceLoop a inputParsed inputToBeParsed roleID commands []
  else
    commandsLoop a commands inputParsed inputToBeParsed roleID index []

/-- `(a *App).GetSuggestions(commands, userInput, roleID)`. -/
def GetSuggestions (a : App) (commands : List AutocompleteData)
    (userInput roleID : Str) : Option (List AutocompleteSuggestion) :=
  getSuggestions a commands [] userInput roleID

/-- The payload of the argument has the kind its `Type` declares, whether the
payload pointer is nil or not; an argument of no known kind is not
constrained. -/
def kindOk (arg : AutocompleteArg) : Bool :=
  match arg.Type_, arg.Data with
  | .TextInput, .TextArg _ => true
  | .StaticList, .StaticListArg _ => true
  | .DynamicList, .DynamicListArg _ => true
  | .Other, _ => true
  | _, _ => false

/-- The payload pointer of the argument is not nil. -/
def payloadNonNil (arg : AutocompleteArg) : Bool :=
  match arg.Data with
  | .TextArg none => false
  | .StaticListArg none => false
  | .DynamicListArg none => false
  | _ => true

mutual

/-- Every argument that the node and its descendants hold has a payload of the
kind its `Type` declares; nil pointers hold no argument. -/
def kindsOkNode : AutocompleteData → Bool
  | .nil => true
  | .ref _ _ _ _ arguments subCommands =>
    arguments.all (fun x => match x with
      | none => true
      | some arg => kindOk arg) && kindsOkList subCommands

/-- Every argument in the command tree has a payload of the kind its `Type`
declares. -/
def kindsOkList : List AutocompleteData → Bool
  | [] => true
  | c :: rest => kindsOkNode c && kindsOkList rest

end

mutual

/-- The node pointer, the argument pointers and payload pointers of the node,
and the pointers of all its descendants are not nil. -/
def nonNilNode : AutocompleteData → Bool
  | .nil => false
  | .ref _ _ _ _ arguments subCommands =>
    arguments.all (fun x => match x with
      | none => false
      | some arg => payloadNonNil arg) && nonNilList subCommands

/-- No pointer in the command tree is nil. -/
def nonNilList : List AutocompleteData → Bool
  | [] => true
  | c :: rest => nonNilNode c && nonNilList rest

end

end Ptr

/-- The payload value behind a non-nil pointer of its type. -/
def toPtrArgData : ArgData → Ptr.ArgData
  | .TextArg hint pat => .TextArg (some (hint, pat))
  | .StaticListArg possibleArguments => .StaticListArg (some possibleArguments)
  | .DynamicListArg fetchURL => .DynamicListArg (some fetchURL)
  | .Other => .Other

/-- The argument value as the struct behind a pointer, its payload pointer not
nil. -/
def toPtrArg (arg : AutocompleteArg) : Ptr.AutocompleteArg :=
  ⟨arg.Name, arg.HelpText, arg.Type_, arg.Required, toPtrArgData arg.Data⟩

mutual

/-- The node value behind a pointer, no pointer below it nil. -/
def toPtrNode : AutocompleteData → Ptr.AutocompleteData
  | .mk trigger hint helpText commandRoleID arguments subCommands =>
    .ref trigger hint helpText commandRoleID
      (arguments.map (fun arg => some (toPtrArg arg))) (toPtrList subCommands)

/-- The command list as a list of pointers, none of them nil. -/
def toPtrList : List AutocompleteData → List Ptr.AutocompleteData
  | [] => []
  | c :: rest => toPtrNode c :: toPtrList rest

end

/-- The text argument of the fixtures behind a pointer. -/
def textArgPtr : Ptr.AutocompleteArg :=
  ⟨[], "message".toList, .TextInput, true, .TextArg (some ("[message]".toList, []))⟩

/-- The static list argument of the fixtures behind a pointer. -/
def listArgPtr : Ptr.AutocompleteArg :=
  ⟨[], "level".toList, .StaticList, true,
    .StaticListArg (some [⟨"alpha".toList, [], []⟩, ⟨"alt".toList, [], []⟩])⟩

/-- The command `ban` of the fixtures with every pointer set. -/
def banCommandPtr : Ptr.AutocompleteData :=
  .ref "ban".toList "[user]".toList "Ban".toList []
    [some textArgPtr, some listArgPtr, some textArgPtr] []

/-! ## Test fixtures -/

/-- An application whose admin role is `system_admin` and whose fetches all
fail. -/
def testApp : App := ⟨"system_admin".toList, fun _ => none⟩

/-- A command `kick` of role `moderator` without arguments, with the
sub-commands `user` (role `moderator`) and `all` (role `owner`). -/
def kickCommand : AutocompleteData :=
  .mk "kick".toList "[target]".toList "Kick".toList "moderator".toList []
    [.mk "user".toList "[name]".toList "Kick a user".toList "moderator".toList [] [],
     .mk "all".toList [] "Kick everybody".toList "owner".toList [] []]

/-- A command `kill` of role `owner`. -/
def killCommand : AutocompleteData :=
  .mk "kill".toList [] "Kill".toList "owner".toList [] []

/-- A positional text argument with hint `[message]`. -/
def textArg : AutocompleteArg :=
  ⟨[], "message".toList, .TextInput, true, .TextArg "[message]".toList []⟩

/-- The list item `item` with an empty hint and help text. -/
def listItem (item : String) : AutocompleteStaticListItem := ⟨item.toList, [], []⟩

/-- A positional static list argument with the items `alpha` and `alt`. -/
def listArg : AutocompleteArg :=
  ⟨[], "level".toList, .StaticList, true,
    .StaticListArg [listItem "alpha", listItem "alt"]⟩

/-- The command `ban` with a text, a static list and a text argument. -/
def banCommand : AutocompleteData :=
  .mk "ban".toList "[user]".toList "Ban".toList [] [textArg, listArg, textArg] []

/-- A positional dynamic list argument fetched from `http://example/users`. -/
def dynamicArg : AutocompleteArg :=
  ⟨[], "who".toList, .DynamicList, true, .DynamicListArg "http://example/users".toList⟩

/-- A command `mute` with a dynamic list and a text argument, and a
sub-command that is never reached. -/
def muteCommand : AutocompleteData :=
  .mk "mute".toList [] [] [] [dynamicArg, textArg]
    [.mk "all".toList [] [] [] [listArg] []]

/-- A named static list argument `--level`. -/
def namedArg : AutocompleteArg :=
  ⟨"level".toList, "level".toList, .StaticList, false,
    .StaticListArg [listItem "alpha", listItem "alt"]⟩

/-- An application whose requests succeed with a response that does not
decode: the decoder returns no item. -/
def malformedApp : App := ⟨"system_admin".toList, fun _ => some []⟩

/-- The command `echo` with one positional text argument. -/
def echoCommand : AutocompleteData :=
  .mk "echo".toList "[text]".toList "Echo".toList [] [textArg] []

/-! ## Facts about the string primitives -/

theorem HasPrefix_iff (s pre : Str) : HasPrefix s pre = true ↔ pre <+: s := by
  unfold HasPrefix
  exact List.isPrefixOf_iff_prefix

theorem Index_nil_single (c : Char) : Index [] [c] = -1 := by
  simp [Index, HasPrefix]

theorem Index_cons_single (x c : Char) (t : Str) :
    Index (x :: t) [c] =
      if x = c then 0 else if Index t [c] = -1 then -1 else Index t [c] + 1 := by
  rw [Index]
  by_cases h : x = c
  · subst h; simp [HasPrefix]
  · have h2 : ¬ c = x := fun e => h e.symm
    simp [HasPrefix, h, h2]

theorem Index_single_nonneg_or (s : Str) (c : Char) :
    Index s [c] = -1 ∨ 0 ≤ Index s [c] := by
  induction s with
  | nil => left; exact Index_nil_single c
  | cons x t ih =>
    rw [Index_cons_single]
    by_cases h : x = c
    · simp [h]
    · rcases ih with ih | ih
      · simp [h, ih]
      · right
        simp only [h, if_false]
        split <;> omega

theorem Index_single_of_not_mem (s : Str) (c : Char) (h : c ∉ s) :
    Index s [c] = -1 := by
  induction s with
  | nil => exact Index_nil_single c
  | cons x t ih =>
    rw [Index_cons_single]
    have hx : ¬ x = c := fun e => h (by simp [e])
    have ht : c ∉ t := fun e => h (by simp [e])
    simp [hx, ih ht]

theorem Index_single_append (w r : Str) (c : Char) (h : c ∉ w) :
    Index (w ++ c :: r) [c] = (w.length : Int) := by
  induction w with
  | nil => simp [Index_cons_single]
  | cons x t ih =>
    have hx : ¬ x = c := fun e => h (by simp [e])
    have ht : c ∉ t := fun e => h (by simp [e])
    have := ih ht
    rw [List.cons_append, Index_cons_single]
    simp only [hx, if_false, this, List.length_cons]
    split
    · omega
    · push_cast; ring

theorem mem_of_Index_single_ne (s : Str) (c : Char) (h : Index s [c] ≠ -1) :
    c ∈ s := by
  by_contra hc
  exact h (Index_single_of_not_mem s c hc)

theorem Index_single_eq_neg_one_iff (s : Str) (c : Char) :
    Index s [c] = -1 ↔ c ∉ s := by
  constructor
  · intro h hc
    obtain ⟨w, r, rfl⟩ := List.append_of_mem hc
    clear hc
    induction w with
    | nil => simp [Index_cons_single] at h
    | cons x t ih =>
      rw [List.cons_append, Index_cons_single] at h
      by_cases hx : x = c
      · simp [hx] at h
      · simp only [hx, if_false] at h
        split at h
        · rename_i h1; exact ih h1
        · rcases Index_single_nonneg_or (t ++ c :: r) c with h2 | h2
          · contradiction
          · omega
  · exact Index_single_of_not_mem s c

/-- A string either lacks `c`, or splits at the first `c`, where `Index`
points. -/
theorem Index_single_cases (s : Str) (c : Char) :
    (c ∉ s ∧ Index s [c] = -1) ∨
      ∃ w r, s = w ++ c :: r ∧ c ∉ w ∧ Index s [c] = (w.length : Int) := by
  induction s with
  | nil => left; exact ⟨by simp, Index_nil_single c⟩
  | cons x t ih =>
    by_cases hx : x = c
    · right
      refine ⟨[], t, by simp [hx], by simp, ?_⟩
      simp [Index_cons_single, hx]
    · have hx2 : ¬ c = x := fun e => hx e.symm
      rcases ih with ⟨h1, _⟩ | ⟨w, r, h1, h2, _⟩
      · left
        have hm : c ∉ x :: t := by simp [h1, hx2]
        exact ⟨hm, Index_single_of_not_mem _ _ hm⟩
      · right
        have hm : c ∉ x :: w := by simp [h2, hx2]
        refine ⟨x :: w, r, by simp [h1], hm, ?_⟩
        rw [h1]
        exact Index_single_append (x :: w) r c hm

theorem sliceTo_append (w r : Str) : sliceTo (w ++ r) (w.length : Int) = some w := by
  simp [sliceTo, len]

theorem sliceFrom_append (w r : Str) : sliceFrom (w ++ r) (w.length : Int) = some r := by
  simp [sliceFrom, len]

theorem TrimPrefix_space_cons (s : Str) : TrimPrefix (' ' :: s) [' '] = s := by
  simp [TrimPrefix, HasPrefix]

theorem TrimPrefix_space_of_head (s : Str) (h : s.head? ≠ some ' ') :
    TrimPrefix s [' '] = s := by
  cases s with
  | nil => simp [TrimPrefix, HasPrefix]
  | cons x t =>
    have hx : ¬ x = ' ' := fun e => h (by simp [e])
    have hx2 : ¬ ' ' = x := fun e => hx e.symm
    simp [TrimPrefix, HasPrefix, hx2]

/-! ## The branch without a space -/

theorem noSpaceLoop_eq (a : App) (inputParsed inputToBeParsed roleID : Str)
    (commands : List AutocompleteData) (suggestions : List AutocompleteSuggestion) :
    noSpaceLoop a inputParsed inputToBeParsed roleID commands suggestions =
      suggestions ++
        (commands.filter (fun c => decide (inputToBeParsed <+: c.Trigger ∧
            (c.RoleID = roleID ∨ roleID = a.SYSTEM_ADMIN_ROLE_ID ∨ roleID = [])))).map
          (fun c => ⟨inputParsed ++ c.Trigger, c.Hint, c.HelpText⟩) := by
  induction commands generalizing suggestions with
  | nil => simp [noSpaceLoop]
  | cons c rest ih =>
    rw [noSpaceLoop]
    by_cases h : inputToBeParsed <+: c.Trigger ∧
        (c.RoleID = roleID ∨ roleID = a.SYSTEM_ADMIN_ROLE_ID ∨ roleID = [])
    · have h1 : (HasPrefix c.Trigger inputToBeParsed &&
          (c.RoleID == roleID || roleID == a.SYSTEM_ADMIN_ROLE_ID ||
            roleID == [])) = true := by
        simp only [Bool.and_eq_true, Bool.or_eq_true, beq_iff_eq, HasPrefix_iff]
        exact ⟨h.1, by tauto⟩
      rw [if_pos h1, ih, List.filter_cons_of_pos (by simpa using h)]
      simp
    · have h1 : ¬ (HasPrefix c.Trigger inputToBeParsed &&
          (c.RoleID == roleID || roleID == a.SYSTEM_ADMIN_ROLE_ID ||
            roleID == [])) = true := by
        simp only [Bool.and_eq_true, Bool.or_eq_true, beq_iff_eq, HasPrefix_iff]
        intro h2; exact h ⟨h2.1, by tauto⟩
      rw [if_neg h1, ih, List.filter_cons_of_neg (by simpa using h)]

/-- C1: on an input without a space, `getSuggestions` returns exactly, in
declaration order, one suggestion `inputParsed + Trigger` (with the command's
hint and help text) for every command whose trigger starts with the input and
whose role passes the filter; sub-commands and arguments play no part. -/
theorem getSuggestions_no_space (a : App) (commands : List AutocompleteData)
    (inputParsed inputToBeParsed roleID : Str) (h : ' ' ∉ inputToBeParsed) :
    getSuggestions a commands inputParsed inputToBeParsed roleID =
      some ((commands.filter (fun c => decide (inputToBeParsed <+: c.Trigger ∧
            (c.RoleID = roleID ∨ roleID = a.SYSTEM_ADMIN_ROLE_ID ∨ roleID = [])))).map
          (fun c => ⟨inputParsed ++ c.Trigger, c.Hint, c.HelpText⟩)) := by
  unfold getSuggestions
  simp only [Index_single_of_not_mem _ _ h, if_true, noSpaceLoop_eq, List.nil_append]

/-- Witness of C1: the input `ech` against the command `echo`. -/
theorem getSuggestions_no_space_witness :
    ' ' ∉ "ech".toList ∧
      getSuggestions testApp [echoCommand] "/".toList "ech".toList [] =
        some [⟨"/echo".toList, "[text]".toList, "Echo".toList⟩] :=
  ⟨by decide,
    (getSuggestions_no_space testApp [echoCommand] "/".toList "ech".toList []
      (by decide)).trans (by decide)⟩

/-! ## The role filter -/

theorem noSpaceLoop_anyRole (a : App) (roleID : Str)
    (hr : roleID = [] ∨ roleID = a.SYSTEM_ADMIN_ROLE_ID)
    (inputParsed inputToBeParsed : Str) (commands : List AutocompleteData)
    (suggestions : List AutocompleteSuggestion) :
    noSpaceLoop a inputParsed inputToBeParsed roleID commands suggestions =
      noSpaceLoopAnyRole inputParsed inputToBeParsed commands suggestions := by
  induction commands generalizing suggestions with
  | nil => rfl
  | cons c rest ih =>
    have h : (c.RoleID == roleID || roleID == a.SYSTEM_ADMIN_ROLE_ID ||
        roleID == []) = true := by
      rcases hr with hr | hr <;> simp [hr]
    simp only [noSpaceLoop, noSpaceLoopAnyRole, h, Bool.and_true, ih]

mutual

theorem commandStep_anyRole (a : App) (roleID : Str)
    (hr : roleID = [] ∨ roleID = a.SYSTEM_ADMIN_ROLE_ID) :
    ∀ (c : AutocompleteData) (inputParsed inputToBeParsed : Str) (index : Int)
      (suggestions : List AutocompleteSuggestion),
      commandStep a c inputParsed inputToBeParsed roleID index suggestions =
        commandStepAnyRole a c inputParsed inputToBeParsed index suggestions
  | .mk trigger hint helpText commandRoleID arguments subCommands,
      inputParsed, inputToBeParsed, index, suggestions => by
    have h : ¬ (roleID ≠ [] ∧ roleID ≠ a.SYSTEM_ADMIN_ROLE_ID ∧
        roleID ≠ commandRoleID) := by
      rcases hr with hr | hr <;> simp [hr]
    simp only [commandStep, commandStepAnyRole, h, if_false,
      noSpaceLoop_anyRole a roleID hr, commandsLoop_anyRole a roleID hr subCommands]

theorem commandsLoop_anyRole (a : App) (roleID : Str)
    (hr : roleID = [] ∨ roleID = a.SYSTEM_ADMIN_ROLE_ID) :
    ∀ (commands : List AutocompleteData) (inputParsed inputToBeParsed : Str)
      (index : Int) (suggestions : List AutocompleteSuggestion),
      commandsLoop a commands inputParsed inputToBeParsed roleID index suggestions =
        commandsLoopAnyRole a commands inputParsed inputToBeParsed index suggestions
  | [], _, _, _, _ => by simp only [commandsLoop, commandsLoopAnyRole]
  | c :: rest, inputParsed, inputToBeParsed, index, suggestions => by
    simp only [commandsLoop, commandsLoopAnyRole, commandStep_anyRole a roleID hr c,
      commandsLoop_anyRole a roleID hr rest]

end

theorem getSuggestions_anyRole_of (a : App) (roleID : Str)
    (hr : roleID = [] ∨ roleID = a.SYSTEM_ADMIN_ROLE_ID)
    (commands : List AutocompleteData) (inputParsed inputToBeParsed : Str) :
    getSuggestions a commands inputParsed inputToBeParsed roleID =
      getSuggestionsAnyRole a commands inputParsed inputToBeParsed := by
  simp only [getSuggestions, getSuggestionsAnyRole, noSpaceLoop_anyRole a roleID hr,
    commandsLoop_anyRole a roleID hr]

/-- C2: the empty role and the admin role both match any node: on every
command tree and input, `getSuggestions` with the empty role and with
`SYSTEM_ADMIN_ROLE_ID` return the same list, and both return what the matcher
without any role check returns. -/
theorem getSuggestions_empty_admin_anyRole (a : App)
    (commands : List AutocompleteData) (inputParsed inputToBeParsed : Str) :
    getSuggestions a commands inputParsed inputToBeParsed [] =
        getSuggestions a commands inputParsed inputToBeParsed a.SYSTEM_ADMIN_ROLE_ID ∧
      getSuggestions a commands inputParsed inputToBeParsed [] =
        getSuggestionsAnyRole a commands inputParsed inputToBeParsed ∧
      getSuggestions a commands inputParsed inputToBeParsed a.SYSTEM_ADMIN_ROLE_ID =
        getSuggestionsAnyRole a commands inputParsed inputToBeParsed := by
  have h1 := getSuggestions_anyRole_of a [] (Or.inl rfl) commands inputParsed
    inputToBeParsed
  have h2 := getSuggestions_anyRole_of a a.SYSTEM_ADMIN_ROLE_ID (Or.inr rfl) commands
    inputParsed inputToBeParsed
  exact ⟨h1.trans h2.symm, h1, h2⟩

theorem slices_at_first (w r : Str) (c : Char) :
    sliceTo (w ++ c :: r) (w.length : Int) = some w ∧
      sliceFrom (w ++ c :: r) ((w.length : Int) + 1) = some r ∧
      sliceTo (w ++ c :: r) ((w.length : Int) + 1) = some (w ++ [c]) := by
  refine ⟨sliceTo_append w (c :: r), ?_, ?_⟩
  · have h := sliceFrom_append (w ++ [c]) r
    simpa using h
  · have h := sliceTo_append (w ++ [c]) r
    simpa using h

theorem sliceTo_Index_isSome (s : Str) (c : Char) (h : Index s [c] ≠ -1) :
    ∃ w, sliceTo s (Index s [c]) = some w := by
  rcases Index_single_cases s c with ⟨_, h2⟩ | ⟨w, r, h1, _, h3⟩
  · exact absurd h2 h
  · refine ⟨w, ?_⟩
    rw [h3, h1]
    exact (slices_at_first w r c).1

theorem keepRoleNode_fields (role : Str) (c : AutocompleteData) :
    (keepRoleNode role c).Trigger = c.Trigger ∧ (keepRoleNode role c).Hint = c.Hint ∧
      (keepRoleNode role c).HelpText = c.HelpText ∧
      (keepRoleNode role c).RoleID = c.RoleID := by
  cases c
  simp [keepRoleNode, AutocompleteData.Trigger, AutocompleteData.Hint,
    AutocompleteData.HelpText, AutocompleteData.RoleID]

theorem noSpaceLoop_keepRole (a : App) (role : Str) (h1 : role ≠ [])
    (h2 : role ≠ a.SYSTEM_ADMIN_ROLE_ID) (inputParsed inputToBeParsed : Str)
    (commands : List AutocompleteData) (suggestions : List AutocompleteSuggestion) :
    noSpaceLoop a inputParsed inputToBeParsed role (keepRoleList role commands)
        suggestions =
      noSpaceLoop a inputParsed inputToBeParsed role commands suggestions := by
  induction commands generalizing suggestions with
  | nil => simp [keepRoleList]
  | cons c rest ih =>
    rw [keepRoleList]
    by_cases hc : c.RoleID = role
    · obtain ⟨f1, f2, f3, f4⟩ := keepRoleNode_fields role c
      simp only [if_pos hc, noSpaceLoop, f1, f2, f3, f4, ih]
    · have hb : (HasPrefix c.Trigger inputToBeParsed &&
          (c.RoleID == role || role == a.SYSTEM_ADMIN_ROLE_ID || role == [])) = false := by
        simp [hc, h1, h2]
      rw [if_neg hc, ih]
      conv_rhs => rw [noSpaceLoop]
      simp only [hb, Bool.false_eq_true, if_false]

theorem commandStep_role_mismatch (a : App) (role : Str) (h1 : role ≠ [])
    (h2 : role ≠ a.SYSTEM_ADMIN_ROLE_ID) (c : AutocompleteData) (hc : c.RoleID ≠ role)
    (inputParsed inputToBeParsed : Str) (hi : Index inputToBeParsed [' '] ≠ -1)
    (suggestions : List AutocompleteSuggestion) :
    commandStep a c inputParsed inputToBeParsed role (Index inputToBeParsed [' '])
      suggestions = some suggestions := by
  obtain ⟨w, hw⟩ := sliceTo_Index_isSome inputToBeParsed ' ' hi
  cases c with
  | mk trigger hint helpText commandRoleID arguments subCommands =>
    have hc2 : ¬ role = commandRoleID := fun e => hc e.symm
    simp only [commandStep, hw, Option.bind_eq_bind, Option.some_bind]
    by_cases ht : trigger = w
    · simp [ht, h1, h2, hc2]
    · simp [ht]

mutual

theorem commandStep_keepRole (a : App) (role : Str) (h1 : role ≠ [])
    (h2 : role ≠ a.SYSTEM_ADMIN_ROLE_ID) :
    ∀ (c : AutocompleteData) (inputParsed inputToBeParsed : Str) (index : Int)
      (suggestions : List AutocompleteSuggestion),
      commandStep a (keepRoleNode role c) inputParsed inputToBeParsed role index
          suggestions =
        commandStep a c inputParsed inputToBeParsed role index suggestions
  | .mk trigger hint helpText commandRoleID arguments subCommands,
      inputParsed, inputToBeParsed, index, suggestions => by
    simp only [keepRoleNode, commandStep, noSpaceLoop_keepRole a role h1 h2]
    have ih := fun p t (ht : Index t [' '] ≠ -1) =>
      commandsLoop_keepRole a role h1 h2 subCommands p t ht []
    cases sliceTo inputToBeParsed index with
    | none => rfl
    | some firstToken =>
      cases sliceFrom inputToBeParsed (index + 1) with
      | none => rfl
      | some toBeParsed =>
        cases sliceTo inputToBeParsed (index + 1) with
        | none => rfl
        | some consumed =>
          simp only [Option.bind_eq_bind, Option.some_bind]
          by_cases hi : Index toBeParsed [' '] = -1
          · simp only [hi, if_true]
          · simp only [hi, if_false, ih _ _ hi]

theorem commandsLoop_keepRole (a : App) (role : Str) (h1 : role ≠ [])
    (h2 : role ≠ a.SYSTEM_ADMIN_ROLE_ID) :
    ∀ (commands : List AutocompleteData) (inputParsed inputToBeParsed : Str)
      (_ : Index inputToBeParsed [' '] ≠ -1)
      (suggestions : List AutocompleteSuggestion),
      commandsLoop a (keepRoleList role commands) inputParsed inputToBeParsed role
          (Index inputToBeParsed [' ']) suggestions =
        commandsLoop a commands inputParsed inputToBeParsed role
          (Index inputToBeParsed [' ']) suggestions
  | [], _, _, _, _ => by simp only [keepRoleList]
  | c :: rest, inputParsed, inputToBeParsed, hi, suggestions => by
    rw [keepRoleList]
    by_cases hc : c.RoleID = role
    · rw [if_pos hc]
      simp only [commandsLoop, commandStep_keepRole a role h1 h2 c]
      cases commandStep a c inputParsed inputToBeParsed role
          (Index inputToBeParsed [' ']) suggestions with
      | none => rfl
      | some s2 =>
        simp only [Option.bind_eq_bind, Option.some_bind]
        exact commandsLoop_keepRole a role h1 h2 rest inputParsed inputToBeParsed hi s2
    · rw [if_neg hc]
      conv_rhs => rw [commandsLoop]
      rw [commandStep_role_mismatch a role h1 h2 c hc inputParsed inputToBeParsed hi]
      simp only [Option.bind_eq_bind, Option.some_bind]
      exact commandsLoop_keepRole a role h1 h2 rest inputParsed inputToBeParsed hi
        suggestions

end

theorem getSuggestions_keepRole (a : App) (role : Str) (h1 : role ≠ [])
    (h2 : role ≠ a.SYSTEM_ADMIN_ROLE_ID) (commands : List AutocompleteData)
    (inputParsed inputToBeParsed : Str) :
    getSuggestions a (keepRoleList role commands) inputParsed inputToBeParsed role =
      getSuggestions a commands inputParsed inputToBeParsed role := by
  unfold getSuggestions
  by_cases hi : Index inputToBeParsed [' '] = -1
  · simp only [hi, if_true, noSpaceLoop_keepRole a role h1 h2]
  · simp only [hi, if_false]
    exact commandsLoop_keepRole a role h1 h2 commands inputParsed inputToBeParsed hi []

theorem keepRoleList_append (role : Str) (xs ys : List AutocompleteData) :
    keepRoleList role (xs ++ ys) = keepRoleList role xs ++ keepRoleList role ys := by
  induction xs with
  | nil => simp [keepRoleList]
  | cons c rest ih =>
    rw [List.cons_append, keepRoleList, keepRoleList, ih]
    split <;> simp

/-- C3: a role `role` other than the empty role and the admin role matches
only nodes carrying it: removing, at every level, the nodes whose `RoleID`
differs from `role` does not change what `getSuggestions` returns for `role`,
and a single node whose `RoleID` differs can be dropped from any command list
without changing the result, whether or not the input holds a space. -/
theorem getSuggestions_specific_role (a : App) (role : Str) (h1 : role ≠ [])
    (h2 : role ≠ a.SYSTEM_ADMIN_ROLE_ID) (commands : List AutocompleteData)
    (inputParsed inputToBeParsed : Str) :
    getSuggestions a (keepRoleList role commands) inputParsed inputToBeParsed role =
        getSuggestions a commands inputParsed inputToBeParsed role ∧
      ∀ (before after : List AutocompleteData) (n : AutocompleteData),
        n.RoleID ≠ role →
        getSuggestions a (before ++ n :: after) inputParsed inputToBeParsed role =
          getSuggestions a (before ++ after) inputParsed inputToBeParsed role := by
  refine ⟨getSuggestions_keepRole a role h1 h2 commands inputParsed inputToBeParsed, ?_⟩
  intro before after n hn
  rw [← getSuggestions_keepRole a role h1 h2 (before ++ n :: after),
    ← getSuggestions_keepRole a role h1 h2 (before ++ after), keepRoleList_append,
    keepRoleList_append]
  congr 2
  rw [keepRoleList, if_neg hn]

/-- Witness of C3: role `moderator` on the commands `echo`, `kick`, `kill`
with the input `kick ` . -/
theorem getSuggestions_specific_role_witness :
    "moderator".toList ≠ [] ∧ "moderator".toList ≠ testApp.SYSTEM_ADMIN_ROLE_ID ∧
      (getSuggestions testApp
          (keepRoleList "moderator".toList [echoCommand, kickCommand, killCommand])
          [] "kick ".toList "moderator".toList =
        getSuggestions testApp [echoCommand, kickCommand, killCommand]
          [] "kick ".toList "moderator".toList ∧
      ∀ (before after : List AutocompleteData) (n : AutocompleteData),
        n.RoleID ≠ "moderator".toList →
        getSuggestions testApp (before ++ n :: after) [] "kick ".toList
            "moderator".toList =
          getSuggestions testApp (before ++ after) [] "kick ".toList
            "moderator".toList) :=
  ⟨by decide, by decide,
    getSuggestions_specific_role testApp "moderator".toList (by decide) (by decide)
      [echoCommand, kickCommand, killCommand] [] "kick ".toList⟩

/-! ## Descent into sub-commands -/

theorem commandsLoop_single (a : App) (c : AutocompleteData)
    (inputParsed inputToBeParsed roleID : Str) (index : Int)
    (suggestions : List AutocompleteSuggestion) :
    commandsLoop a [c] inputParsed inputToBeParsed roleID index suggestions =
      commandStep a c inputParsed inputToBeParsed roleID index suggestions := by
  simp only [commandsLoop, Option.bind_eq_bind, Option.bind_some]

/-- The recursive call written out in `commandStep` is the call
`a.getSuggestions(command.SubCommands, parsed, toBeParsed, roleID)`. -/
theorem getSuggestions_subCommands (a : App) (subCommands : List AutocompleteData)
    (parsed toBeParsed roleID : Str) :
    (if Index toBeParsed [' '] = -1 then
        some (noSpaceLoop a parsed toBeParsed roleID subCommands [])
      else
        commandsLoop a subCommands parsed toBeParsed roleID (Index toBeParsed [' ']) []) =
      getSuggestions a subCommands parsed toBeParsed roleID := rfl

/-- What one node does on an input `t ++ " " ++ rest` with `t` its space-free
trigger, when its role passes. -/
theorem getSuggestions_single_match (a : App) (n : AutocompleteData) (roleID : Str)
    (ht : ' ' ∉ n.Trigger)
    (hrole : roleID = [] ∨ roleID = a.SYSTEM_ADMIN_ROLE_ID ∨ roleID = n.RoleID)
    (inputParsed rest : Str) :
    getSuggestions a [n] inputParsed (n.Trigger ++ ' ' :: rest) roleID =
      if n.Arguments.length = 0 then
        getSuggestions a n.SubCommands (inputParsed ++ (n.Trigger ++ [' '])) rest roleID
      else
        argumentsLoop a n.Arguments (inputParsed ++ (n.Trigger ++ [' '])) rest [] := by
  cases n with
  | mk trigger hint helpText commandRoleID arguments subCommands =>
    simp only [AutocompleteData.Trigger, AutocompleteData.RoleID,
      AutocompleteData.Arguments, AutocompleteData.SubCommands] at ht hrole ⊢
    have hi := Index_single_append trigger rest ' ' ht
    obtain ⟨s1, s2, s3⟩ := slices_at_first trigger rest ' '
    have hne : ¬ ((trigger.length : Int) = -1) := by omega
    have hr : ¬ (roleID ≠ [] ∧ roleID ≠ a.SYSTEM_ADMIN_ROLE_ID ∧
        roleID ≠ commandRoleID) := by
      rcases hrole with h | h | h <;> simp [h]
    rw [getSuggestions]
    simp only [hi, hne, if_false, commandsLoop_single, commandStep, s1, s2, s3,
      Option.bind_eq_bind, Option.some_bind, ne_eq, not_true_eq_false, hr]
    split
    · rw [← getSuggestions_subCommands]
      split <;> simp
    · rfl

/-- C4: for a node without arguments whose space-free trigger `t` heads the
input and whose role passes, `getSuggestions([n], p, t + " " + rest, roleID)`
is `getSuggestions(n.SubCommands, p + t + " ", rest, roleID)`. -/
theorem getSuggestions_descend (a : App) (n : AutocompleteData) (roleID : Str)
    (hargs : n.Arguments = []) (ht : ' ' ∉ n.Trigger)
    (hrole : roleID = [] ∨ roleID = a.SYSTEM_ADMIN_ROLE_ID ∨ roleID = n.RoleID)
    (inputParsed rest : Str) :
    getSuggestions a [n] inputParsed (n.Trigger ++ [' '] ++ rest) roleID =
      getSuggestions a n.SubCommands (inputParsed ++ n.Trigger ++ [' ']) rest roleID := by
  have h := getSuggestions_single_match a n roleID ht hrole inputParsed rest
  simp only [hargs, List.length_nil, if_true] at h
  simpa using h

/-- Witness of C4: the command `kick` on the input `kick us`. -/
theorem getSuggestions_descend_witness :
    kickCommand.Arguments = [] ∧ ' ' ∉ kickCommand.Trigger ∧
      getSuggestions testApp [kickCommand] "/".toList
          (kickCommand.Trigger ++ [' '] ++ "us".toList) "moderator".toList =
        getSuggestions testApp kickCommand.SubCommands
          ("/".toList ++ kickCommand.Trigger ++ [' ']) "us".toList "moderator".toList ∧
      getSuggestions testApp kickCommand.SubCommands
          ("/".toList ++ kickCommand.Trigger ++ [' ']) "us".toList "moderator".toList =
        some [⟨"/kick user".toList, "[name]".toList, "Kick a user".toList⟩] :=
  ⟨by decide, by decide,
    getSuggestions_descend testApp kickCommand "moderator".toList (by decide)
      (by decide) (by decide) "/".toList "us".toList,
    by decide⟩

/-! ## The text argument -/

theorem sliceTo_of_eq (A B s : Str) (k : Int) (hk : k = (A.length : Int))
    (hs : s = A ++ B) : sliceTo s k = some A := by
  subst hk hs; exact sliceTo_append A B

theorem sliceFrom_of_eq (A B s : Str) (k : Int) (hk : k = (A.length : Int))
    (hs : s = A ++ B) : sliceFrom s k = some B := by
  subst hk hs; exact sliceFrom_append A B

theorem byteAt_of_eq (A B s : Str) (c : Char) (k : Int) (hk : k = (A.length : Int))
    (hs : s = A ++ c :: B) : byteAt s k = some c := by
  subst hk hs
  have h : (0 : Int) ≤ (A.length : Int) ∧ (A.length : Int) < len (A ++ c :: B) := by
    simp only [len, List.length_append, List.length_cons]
    omega
  simp only [byteAt, h, and_self, if_true, Int.toNat_ofNat]
  rw [List.get?_eq_getElem?, List.getElem?_append_right (Nat.le_refl _)]
  simp

/-- Text argument, nothing typed yet. -/
theorem parseText_empty (arg : AutocompleteArg) (hint pat : Str)
    (hd : arg.Data = .TextArg hint pat) (parsed toBeParsed : Str)
    (hin : TrimPrefix toBeParsed [' '] = []) :
    parseInputTextArgument arg parsed toBeParsed =
      some (true, parsed ++ toBeParsed, [], ⟨parsed ++ toBeParsed, hint, arg.HelpText⟩) := by
  simp [parseInputTextArgument, hd, hin, len]

/-- Text argument, an opening quote without a closing one. -/
theorem parseText_quote_open (arg : AutocompleteArg) (hint pat : Str)
    (hd : arg.Data = .TextArg hint pat) (parsed toBeParsed tl : Str)
    (hin : TrimPrefix toBeParsed [' '] = '"' :: tl) (hq : '"' ∉ tl) :
    parseInputTextArgument arg parsed toBeParsed =
      some (true, parsed ++ toBeParsed, [], ⟨parsed ++ toBeParsed, hint, arg.HelpText⟩) := by
  have h0 : byteAt ('"' :: tl) 0 = some '"' :=
    byteAt_of_eq [] tl _ '"' 0 (by simp) (by simp)
  have h1 : sliceFrom ('"' :: tl) 1 = some tl :=
    sliceFrom_of_eq ['"'] tl _ 1 (by simp) (by simp)
  have hl : ¬ (len ('"' :: tl) = 0) := by simp [len]; omega
  simp only [parseInputTextArgument, hd, hin, hl, if_false, h0, h1,
    Option.bind_eq_bind, Option.some_bind, if_true, Index_single_of_not_mem _ _ hq]

/-- Text argument, a closed quote followed by a space. -/
theorem parseText_quote_closed_space (arg : AutocompleteArg) (hint pat : Str)
    (hd : arg.Data = .TextArg hint pat) (parsed toBeParsed w r : Str)
    (hin : TrimPrefix toBeParsed [' '] = '"' :: (w ++ '"' :: ' ' :: r)) (hq : '"' ∉ w) :
    parseInputTextArgument arg parsed toBeParsed =
      some (false, parsed ++ ('"' :: (w ++ ['"', ' '])), r, emptySuggestion) := by
  have h0 : byteAt ('"' :: (w ++ '"' :: ' ' :: r)) 0 = some '"' :=
    byteAt_of_eq [] (w ++ '"' :: ' ' :: r) _ '"' 0 (by simp) (by simp)
  have h1 : sliceFrom ('"' :: (w ++ '"' :: ' ' :: r)) 1 = some (w ++ '"' :: ' ' :: r) :=
    sliceFrom_of_eq ['"'] (w ++ '"' :: ' ' :: r) _ 1 (by simp) (by simp)
  have hl : ¬ (len ('"' :: (w ++ '"' :: ' ' :: r)) = 0) := by simp [len]; omega
  have hi := Index_single_append w (' ' :: r) '"' hq
  have hne : ¬ ((w.length : Int) = -1) := by omega
  have hgt : len ('"' :: (w ++ '"' :: ' ' :: r)) > (w.length : Int) + 2 := by
    simp [len]; omega
  have h2 : byteAt ('"' :: (w ++ '"' :: ' ' :: r)) ((w.length : Int) + 2) = some ' ' :=
    byteAt_of_eq ('"' :: (w ++ ['"'])) r _ ' ' _ (by simp; ring) (by simp)
  have h3 : sliceTo ('"' :: (w ++ '"' :: ' ' :: r)) ((w.length : Int) + 3) =
      some ('"' :: (w ++ ['"', ' '])) :=
    sliceTo_of_eq _ r _ _ (by simp; ring) (by simp)
  have h4 : sliceFrom ('"' :: (w ++ '"' :: ' ' :: r)) ((w.length : Int) + 3) = some r :=
    sliceFrom_of_eq ('"' :: (w ++ ['"', ' '])) r _ _ (by simp; ring) (by simp)
  simp only [parseInputTextArgument, hd, hin, hl, if_false, h0, h1,
    Option.bind_eq_bind, Option.some_bind, if_true, hi, hne, hgt, h2, Option.map_some',
    decide_True, h3, h4]

/-- Text argument, a closed quote not followed by a space. -/
theorem parseText_quote_closed_other (arg : AutocompleteArg) (hint pat : Str)
    (hd : arg.Data = .TextArg hint pat) (parsed toBeParsed w r : Str)
    (hin : TrimPrefix toBeParsed [' '] = '"' :: (w ++ '"' :: r)) (hq : '"' ∉ w)
    (hr : r.head? ≠ some ' ') :
    parseInputTextArgument arg parsed toBeParsed =
      some (false, parsed ++ ('"' :: (w ++ ['"'])), r, emptySuggestion) := by
  have h0 : byteAt ('"' :: (w ++ '"' :: r)) 0 = some '"' :=
    byteAt_of_eq [] (w ++ '"' :: r) _ '"' 0 (by simp) (by simp)
  have h1 : sliceFrom ('"' :: (w ++ '"' :: r)) 1 = some (w ++ '"' :: r) :=
    sliceFrom_of_eq ['"'] (w ++ '"' :: r) _ 1 (by simp) (by simp)
  have hl : ¬ (len ('"' :: (w ++ '"' :: r)) = 0) := by simp [len]; omega
  have hi := Index_single_append w r '"' hq
  have hne : ¬ ((w.length : Int) = -1) := by omega
  have h3 : sliceTo ('"' :: (w ++ '"' :: r)) ((w.length : Int) + 2) =
      some ('"' :: (w ++ ['"'])) :=
    sliceTo_of_eq _ r _ _ (by simp; ring) (by simp)
  have h4 : sliceFrom ('"' :: (w ++ '"' :: r)) ((w.length : Int) + 2) = some r :=
    sliceFrom_of_eq ('"' :: (w ++ ['"'])) r _ _ (by simp; ring) (by simp)
  cases r with
  | nil =>
    have hgt : ¬ (len ('"' :: (w ++ ['"'])) > (w.length : Int) + 2) := by
      simp [len]; omega
    simp only [parseInputTextArgument, hd, hin, hl, if_false, h0, h1,
      Option.bind_eq_bind, Option.some_bind, if_true, hi, hne, hgt, h3, h4,
      Bool.false_eq_true]
  | cons x r2 =>
    have hx : ¬ x = ' ' := fun e => hr (by simp [e])
    have hgt : len ('"' :: (w ++ '"' :: x :: r2)) > (w.length : Int) + 2 := by
      simp [len]; omega
    have h2 : byteAt ('"' :: (w ++ '"' :: x :: r2)) ((w.length : Int) + 2) = some x :=
      byteAt_of_eq ('"' :: (w ++ ['"'])) r2 _ x _ (by simp; ring) (by simp)
    simp only [parseInputTextArgument, hd, hin, hl, if_false, h0, h1,
      Option.bind_eq_bind, Option.some_bind, if_true, hi, hne, hgt, h2, Option.map_some',
      hx, decide_False, h3, h4, Bool.false_eq_true]

/-- Text argument, a single word still being typed. -/
theorem parseText_word_open (arg : AutocompleteArg) (hint pat : Str)
    (hd : arg.Data = .TextArg hint pat) (parsed toBeParsed : Str) (x : Char) (t : Str)
    (hin : TrimPrefix toBeParsed [' '] = x :: t) (hx : x ≠ '"') (hs : ' ' ∉ x :: t) :
    parseInputTextArgument arg parsed toBeParsed =
      some (true, parsed ++ toBeParsed, [], ⟨parsed ++ toBeParsed, hint, arg.HelpText⟩) := by
  have h0 : byteAt (x :: t) 0 = some x := byteAt_of_eq [] t _ x 0 (by simp) (by simp)
  have hl : ¬ (len (x :: t) = 0) := by simp [len]; omega
  simp only [parseInputTextArgument, hd, hin, hl, if_false, h0,
    Option.bind_eq_bind, Option.some_bind, hx, Index_single_of_not_mem _ _ hs, if_true]

/-- Text argument, a single word followed by a space. -/
theorem parseText_word_closed (arg : AutocompleteArg) (hint pat : Str)
    (hd : arg.Data = .TextArg hint pat) (parsed toBeParsed : Str) (x : Char) (t w r : Str)
    (hin : TrimPrefix toBeParsed [' '] = x :: t) (hx : x ≠ '"')
    (hw : x :: t = w ++ ' ' :: r) (hs : ' ' ∉ w) :
    parseInputTextArgument arg parsed toBeParsed =
      some (false, parsed ++ (w ++ [' ']), r, emptySuggestion) := by
  have h0 : byteAt (x :: t) 0 = some x := byteAt_of_eq [] t _ x 0 (by simp) (by simp)
  have hl : ¬ (len (x :: t) = 0) := by simp [len]; omega
  have hi : Index (x :: t) [' '] = (w.length : Int) := by
    rw [hw]; exact Index_single_append w r ' ' hs
  have hne : ¬ ((w.length : Int) = -1) := by omega
  obtain ⟨_, s2, s3⟩ := slices_at_first w r ' '
  rw [← hw] at s2 s3
  simp only [parseInputTextArgument, hd, hin, hl, if_false, h0,
    Option.bind_eq_bind, Option.some_bind, hx, hi, hne, s2, s3]

/-- C5: a quoted text followed by a space is consumed through the closing
quote and that space: on `toBeParsed = "\"" + w + "\" " + rest` with `w` free
of quotes the parser returns `found = false`, `alreadyParsed = parsed + "\"" +
w + "\" "`, `yetToBeParsed = rest` and the empty suggestion. -/
theorem parseInputTextArgument_quoted (arg : AutocompleteArg) (hint pat : Str)
    (hd : arg.Data = .TextArg hint pat) (parsed w rest : Str) (hq : '"' ∉ w) :
    parseInputTextArgument arg parsed (['"'] ++ w ++ ['"', ' '] ++ rest) =
      some (false, parsed ++ ['"'] ++ w ++ ['"', ' '], rest, emptySuggestion) := by
  have hin : TrimPrefix (['"'] ++ w ++ ['"', ' '] ++ rest) [' '] =
      '"' :: (w ++ '"' :: ' ' :: rest) := by
    rw [TrimPrefix_space_of_head _ (by simp)]
    simp
  rw [parseText_quote_closed_space arg hint pat hd parsed _ w rest hin hq]
  simp

/-- The text argument `[message]` of the fixtures. -/
theorem textArg_data :
    textArg.Data = .TextArg "[message]".toList [] := rfl

/-- Witness of C5: the text argument of `cmd "multi word" rest`. -/
theorem parseInputTextArgument_quoted_witness :
    '"' ∉ "multi word".toList ∧
      parseInputTextArgument textArg "cmd ".toList "\"multi word\" rest".toList =
        some (false, "cmd \"multi word\" ".toList, "rest".toList, emptySuggestion) :=
  ⟨by decide,
    parseInputTextArgument_quoted textArg "[message]".toList [] rfl "cmd ".toList
      "multi word".toList "rest".toList (by decide)⟩

/-- The two outcomes of the text parser on a text argument: the token is
unfinished and the input is echoed, or a non-empty token `consumed` is cut off
the front of `inp` (the text to be parsed minus one leading space). -/
theorem parseText_cases (arg : AutocompleteArg) (hint pat : Str)
    (hd : arg.Data = .TextArg hint pat) (parsed toBeParsed : Str) :
    (TextUnfinished (TrimPrefix toBeParsed [' ']) ∧
        parseInputTextArgument arg parsed toBeParsed =
          some (true, parsed ++ toBeParsed, [],
            ⟨parsed ++ toBeParsed, hint, arg.HelpText⟩)) ∨
      (¬ TextUnfinished (TrimPrefix toBeParsed [' ']) ∧
        ∃ consumed remaining, TrimPrefix toBeParsed [' '] = consumed ++ remaining ∧
          consumed ≠ [] ∧
          parseInputTextArgument arg parsed toBeParsed =
            some (false, parsed ++ consumed, remaining, emptySuggestion)) := by
  rcases hin : TrimPrefix toBeParsed [' '] with _ | ⟨x, t⟩
  · left
    exact ⟨Or.inl rfl, parseText_empty arg hint pat hd parsed toBeParsed hin⟩
  · by_cases hx : x = '"'
    · subst hx
      rcases Index_single_cases t '"' with ⟨hq, _⟩ | ⟨w, r, ht, hq, _⟩
      · left
        exact ⟨Or.inr (Or.inl ⟨rfl, hq⟩),
          parseText_quote_open arg hint pat hd parsed toBeParsed t hin hq⟩
      · right
        subst ht
        refine ⟨?_, ?_⟩
        · rintro (h | ⟨_, h⟩ | ⟨h, _⟩)
          · exact List.cons_ne_nil _ _ h
          · exact h (by simp)
          · exact h rfl
        · by_cases hr : r.head? = some ' '
          · obtain ⟨r2, rfl⟩ : ∃ r2, r = ' ' :: r2 := by
              cases r with
              | nil => simp at hr
              | cons y r2 => exact ⟨r2, by simp at hr; rw [hr]⟩
            exact ⟨'"' :: (w ++ ['"', ' ']), r2, by simp, by simp,
              parseText_quote_closed_space arg hint pat hd parsed toBeParsed w r2 hin hq⟩
          · exact ⟨'"' :: (w ++ ['"']), r, by simp, by simp,
              parseText_quote_closed_other arg hint pat hd parsed toBeParsed w r hin hq hr⟩
    · rcases Index_single_cases (x :: t) ' ' with ⟨hs, _⟩ | ⟨w, r, hw, hs, _⟩
      · left
        refine ⟨Or.inr (Or.inr ⟨?_, hs⟩),
          parseText_word_open arg hint pat hd parsed toBeParsed x t hin hx hs⟩
        simpa using hx
      · right
        refine ⟨?_, w ++ [' '], r, by simp [hw], by simp,
          parseText_word_closed arg hint pat hd parsed toBeParsed x t w r hin hx hw hs⟩
        rintro (h | ⟨h, _⟩ | ⟨_, h⟩)
        · exact List.cons_ne_nil _ _ h
        · exact hx (by simpa using h)
        · exact h (by rw [hw]; simp)

/-- C6: the text parser reports `found = true` exactly when the token is
unfinished: with `inp` the text to be parsed minus one leading space, `found`
holds if and only if `inp` is empty, or starts with a quote and holds no
further quote, or does not start with a quote and holds no space; and then the
result echoes the input: `alreadyParsed = parsed + toBeParsed`,
`yetToBeParsed = ""`, and the suggestion is `parsed + toBeParsed` with the
argument's hint and help text. -/
theorem parseInputTextArgument_found_iff (arg : AutocompleteArg) (hint pat : Str)
    (hd : arg.Data = .TextArg hint pat) (parsed toBeParsed : Str) :
    ∃ r, parseInputTextArgument arg parsed toBeParsed = some r ∧
      (r.1 = true ↔
        (TrimPrefix toBeParsed [' '] = [] ∨
          ((TrimPrefix toBeParsed [' ']).head? = some '"' ∧
            '"' ∉ (TrimPrefix toBeParsed [' ']).tail) ∨
          ((TrimPrefix toBeParsed [' ']).head? ≠ some '"' ∧
            ' ' ∉ TrimPrefix toBeParsed [' ']))) ∧
      (r.1 = true →
        r = (true, parsed ++ toBeParsed, [],
          ⟨parsed ++ toBeParsed, hint, arg.HelpText⟩)) := by
  rcases parseText_cases arg hint pat hd parsed toBeParsed with
    ⟨hu, hr⟩ | ⟨hu, consumed, remaining, _, _, hr⟩
  · exact ⟨_, hr, ⟨fun _ => hu, fun _ => rfl⟩, fun _ => rfl⟩
  · refine ⟨_, hr, ⟨fun h => ?_, fun h => absurd h hu⟩, fun h => ?_⟩ <;> simp at h

/-- Witness of C6: the unterminated quote of `cmd "multi wo`. -/
theorem parseInputTextArgument_found_iff_witness :
    textArg.Data = .TextArg "[message]".toList [] ∧
      ∃ r, parseInputTextArgument textArg "cmd ".toList "\"multi wo".toList = some r ∧
        (r.1 = true ↔
          (TrimPrefix "\"multi wo".toList [' '] = [] ∨
            ((TrimPrefix "\"multi wo".toList [' ']).head? = some '"' ∧
              '"' ∉ (TrimPrefix "\"multi wo".toList [' ']).tail) ∨
            ((TrimPrefix "\"multi wo".toList [' ']).head? ≠ some '"' ∧
              ' ' ∉ TrimPrefix "\"multi wo".toList [' ']))) ∧
        (r.1 = true →
          r = (true, "cmd ".toList ++ "\"multi wo".toList, [],
            ⟨"cmd ".toList ++ "\"multi wo".toList, "[message]".toList,
              textArg.HelpText⟩)) :=
  ⟨rfl, parseInputTextArgument_found_iff textArg "[message]".toList [] rfl
    "cmd ".toList "\"multi wo".toList⟩

/-! ## The list arguments -/

/-- What the first loop of `parseListItems` leaves in `maxPrefix`: the start
value or a matching item followed by a space, at least as long as the start
value and as every matching item followed by a space. -/
theorem maxPrefixLoop_spec (inp : Str) (items : List AutocompleteStaticListItem)
    (maxPrefix : Str) :
    (maxPrefixLoop inp items maxPrefix = maxPrefix ∨
        ∃ i ∈ items, i.Item ++ [' '] <+: inp ∧
          maxPrefixLoop inp items maxPrefix = i.Item ++ [' ']) ∧
      maxPrefix.length ≤ (maxPrefixLoop inp items maxPrefix).length ∧
      ∀ i ∈ items, i.Item ++ [' '] <+: inp →
        i.Item.length + 1 ≤ (maxPrefixLoop inp items maxPrefix).length := by
  induction items generalizing maxPrefix with
  | nil => simp [maxPrefixLoop]
  | cons x rest ih =>
    rw [maxPrefixLoop]
    by_cases hx : x.Item ++ [' '] <+: inp
    · have hb : HasPrefix inp (x.Item ++ [' ']) = true := (HasPrefix_iff _ _).2 hx
      by_cases hl : len maxPrefix < len x.Item + 1
      · simp only [hb, hl, decide_True, Bool.and_self, if_true]
        obtain ⟨h1, h2, h3⟩ := ih (x.Item ++ [' '])
        have hl2 : maxPrefix.length < x.Item.length + 1 := by
          simp only [len] at hl; omega
        simp only [List.length_append, List.length_singleton] at h2
        refine ⟨Or.inr ?_, by omega, ?_⟩
        · rcases h1 with h1 | ⟨i, hi, hp, h1⟩
          · exact ⟨x, by simp, hx, h1⟩
          · exact ⟨i, by simp [hi], hp, h1⟩
        · intro i hi hp
          rcases List.mem_cons.1 hi with rfl | hi
          · exact h2
          · exact h3 i hi hp
      · simp only [hb, hl, decide_False, Bool.and_false, Bool.false_eq_true, if_false]
        obtain ⟨h1, h2, h3⟩ := ih maxPrefix
        have hl2 : x.Item.length + 1 ≤ maxPrefix.length := by
          simp only [len] at hl; omega
        refine ⟨?_, h2, ?_⟩
        · rcases h1 with h1 | ⟨i, hi, hp, h1⟩
          · exact Or.inl h1
          · exact Or.inr ⟨i, by simp [hi], hp, h1⟩
        · intro i hi hp
          rcases List.mem_cons.1 hi with rfl | hi
          · omega
          · exact h3 i hi hp
    · have hb : HasPrefix inp (x.Item ++ [' ']) = false := by
        rw [← Bool.not_eq_true, HasPrefix_iff]; exact hx
      simp only [hb, Bool.false_and, Bool.false_eq_true, if_false]
      obtain ⟨h1, h2, h3⟩ := ih maxPrefix
      refine ⟨?_, h2, ?_⟩
      · rcases h1 with h1 | ⟨i, hi, hp, h1⟩
        · exact Or.inl h1
        · exact Or.inr ⟨i, by simp [hi], hp, h1⟩
      · intro i hi hp
        rcases List.mem_cons.1 hi with rfl | hi
        · exact absurd hp hx
        · exact h3 i hi hp

theorem maxPrefixLoop_no_match (inp : Str) (items : List AutocompleteStaticListItem)
    (h : ∀ i ∈ items, ¬ (i.Item ++ [' '] <+: inp)) :
    maxPrefixLoop inp items [] = [] := by
  rcases (maxPrefixLoop_spec inp items []).1 with h1 | ⟨i, hi, hp, _⟩
  · exact h1
  · exact absurd hp (h i hi)

theorem maxPrefixLoop_longest (inp : Str) (items : List AutocompleteStaticListItem)
    (m : AutocompleteStaticListItem) (hm : m ∈ items) (hpre : m.Item ++ [' '] <+: inp)
    (hmax : ∀ i ∈ items, i.Item ++ [' '] <+: inp → i.Item.length ≤ m.Item.length) :
    maxPrefixLoop inp items [] = m.Item ++ [' '] := by
  obtain ⟨h1, _, h3⟩ := maxPrefixLoop_spec inp items []
  have hlen := h3 m hm hpre
  rcases h1 with h1 | ⟨i, hi, hp, h1⟩
  · rw [h1] at hlen; simp at hlen
  · rw [h1]
    have hle := hmax i hi hp
    rw [h1] at hlen
    simp only [List.length_append, List.length_singleton] at hlen
    have hp2 : i.Item ++ [' '] <+: m.Item ++ [' '] :=
      List.prefix_of_prefix_length_le hp hpre (by simp; omega)
    exact hp2.eq_of_length (by simp; omega)

theorem suggestLoop_eq (helpText parsed inp : Str)
    (items : List AutocompleteStaticListItem)
    (suggestions : List AutocompleteSuggestion) :
    suggestLoop helpText parsed inp items suggestions =
      suggestions ++
        (items.filter (fun i => decide (inp <+: i.Item))).map
          (fun i => ⟨parsed ++ i.Item, i.Hint, helpText⟩) := by
  induction items generalizing suggestions with
  | nil => simp [suggestLoop]
  | cons x rest ih =>
    rw [suggestLoop]
    by_cases hx : inp <+: x.Item
    · have hb : HasPrefix x.Item inp = true := (HasPrefix_iff _ _).2 hx
      rw [if_pos hb, ih, List.filter_cons_of_pos (by simpa using hx)]
      simp
    · have hb : ¬ HasPrefix x.Item inp = true := by rw [HasPrefix_iff]; exact hx
      rw [if_neg hb, ih, List.filter_cons_of_neg (by simpa using hx)]

/-- The list parser when some item followed by a space heads the input. -/
theorem parseListItems_of_maxPrefix (items : List AutocompleteStaticListItem)
    (helpText parsed toBeParsed mp : Str)
    (hmp : maxPrefixLoop (TrimPrefix toBeParsed [' ']) items [] = mp) (hne : mp ≠ [])
    (hpre : mp <+: TrimPrefix toBeParsed [' ']) :
    parseListItems items helpText parsed toBeParsed =
      some (false, parsed ++ mp, (TrimPrefix toBeParsed [' ']).drop mp.length, []) := by
  obtain ⟨rem, hrem⟩ := hpre
  have h1 : sliceTo (TrimPrefix toBeParsed [' ']) (len mp) = some mp :=
    sliceTo_of_eq mp rem _ _ rfl hrem.symm
  have h2 : sliceFrom (TrimPrefix toBeParsed [' ']) (len mp) = some rem :=
    sliceFrom_of_eq mp rem _ _ rfl hrem.symm
  have h3 : (TrimPrefix toBeParsed [' ']).drop mp.length = rem := by
    rw [← hrem]; simp
  simp only [parseListItems, hmp, ne_eq, hne, not_false_eq_true, if_true, h1, h2, h3,
    Option.bind_eq_bind, Option.some_bind]

/-- C8: when some item followed by a space heads the input `inp` (the text to
be parsed minus one leading space), `parseListItems` completes on the longest
such item `m`: `found = false`, no suggestions, `alreadyParsed = parsed + m +
" "`, and `yetToBeParsed` is `inp` without its first `len(m) + 1` characters. -/
theorem parseListItems_longest (items : List AutocompleteStaticListItem)
    (helpText parsed toBeParsed : Str) (m : AutocompleteStaticListItem)
    (hm : m ∈ items) (hpre : m.Item ++ [' '] <+: TrimPrefix toBeParsed [' '])
    (hmax : ∀ i ∈ items, i.Item ++ [' '] <+: TrimPrefix toBeParsed [' '] →
      i.Item.length ≤ m.Item.length) :
    parseListItems items helpText parsed toBeParsed =
      some (false, parsed ++ m.Item ++ [' '],
        (TrimPrefix toBeParsed [' ']).drop (m.Item.length + 1), []) := by
  have h := parseListItems_of_maxPrefix items helpText parsed toBeParsed
    (m.Item ++ [' ']) (maxPrefixLoop_longest _ items m hm hpre hmax) (by simp) hpre
  simpa using h

/-- Witness of C8: the items `a`, `ab` on `ab rest` select `ab` and leave
`rest`. -/
theorem parseListItems_longest_witness :
    listItem "ab" ∈ [listItem "a", listItem "ab"] ∧
      (listItem "ab").Item ++ [' '] <+: TrimPrefix "ab rest".toList [' '] ∧
      (∀ i ∈ [listItem "a", listItem "ab"],
        i.Item ++ [' '] <+: TrimPrefix "ab rest".toList [' '] →
          i.Item.length ≤ (listItem "ab").Item.length) ∧
      parseListItems [listItem "a", listItem "ab"] [] "cmd ".toList "ab rest".toList =
        some (false, "cmd ab ".toList, "rest".toList, []) :=
  ⟨by decide, by decide, by decide,
    (parseListItems_longest [listItem "a", listItem "ab"] [] "cmd ".toList
      "ab rest".toList (listItem "ab") (by decide) (by decide) (by decide)).trans
      (by decide)⟩

/-- The items `a`, `a b` on `a b rest` select `a b`. -/
theorem parseListItems_item_with_space :
    parseListItems [listItem "a", listItem "a b"] [] "cmd ".toList "a b rest".toList =
      some (false, "cmd a b ".toList, "rest".toList, []) := by decide

/-- C9: when no item followed by a space heads the input `inp` (the text to be
parsed minus one leading space), `parseListItems` returns `found = true`,
`alreadyParsed = parsed + toBeParsed`, `yetToBeParsed = ""`, and, in item
order, one suggestion `parsed + Item` (with the item's hint and the argument's
help text) for every item that starts with `inp`. -/
theorem parseListItems_suggest (items : List AutocompleteStaticListItem)
    (helpText parsed toBeParsed : Str)
    (h : ∀ i ∈ items, ¬ (i.Item ++ [' '] <+: TrimPrefix toBeParsed [' '])) :
    parseListItems items helpText parsed toBeParsed =
      some (true, parsed ++ toBeParsed, [],
        (items.filter (fun i => decide (TrimPrefix toBeParsed [' '] <+: i.Item))).map
          (fun i => ⟨parsed ++ i.Item, i.Hint, helpText⟩)) := by
  simp only [parseListItems, maxPrefixLoop_no_match _ items h, ne_eq, not_true_eq_false,
    if_false, suggestLoop_eq, List.nil_append]

/-- Witness of C9: the items `alpha`, `alt` on `al` yield both items. -/
theorem parseListItems_suggest_witness :
    (∀ i ∈ [listItem "alpha", listItem "alt"],
        ¬ (i.Item ++ [' '] <+: TrimPrefix "al".toList [' '])) ∧
      parseListItems [listItem "alpha", listItem "alt"] "help".toList "cmd ".toList
          "al".toList =
        some (true, "cmd al".toList, [],
          [⟨"cmd alpha".toList, [], "help".toList⟩,
           ⟨"cmd alt".toList, [], "help".toList⟩]) :=
  ⟨by decide,
    (parseListItems_suggest [listItem "alpha", listItem "alt"] "help".toList
      "cmd ".toList "al".toList (by decide)).trans (by decide)⟩

/-! ## The argument loop -/

/-- One iteration of the argument loop, in terms of `parseArgument`. -/
theorem argumentsLoop_cons (a : App) (arg : AutocompleteArg)
    (rest : List AutocompleteArg) (parsed toBeParsed : Str)
    (suggestions : List AutocompleteSuggestion) :
    argumentsLoop a (arg :: rest) parsed toBeParsed suggestions =
      match parseArgument a arg parsed toBeParsed with
      | none => none
      | some (true, _, _, found) => some (suggestions ++ found)
      | some (false, changedParsed, changedToBeParsed, _) =>
        argumentsLoop a rest changedParsed changedToBeParsed suggestions := by
  rw [argumentsLoop, parseArgument]
  by_cases hn : arg.Name = []
  · simp only [hn, if_true]
    cases arg.Type_ with
    | TextInput =>
      cases parseInputTextArgument arg parsed toBeParsed with
      | none => rfl
      | some r =>
        obtain ⟨found, p, t, sg⟩ := r
        cases found <;> simp
    | StaticList =>
      cases parseStaticListArgument arg parsed toBeParsed with
      | none => rfl
      | some r =>
        obtain ⟨found, p, t, sg⟩ := r
        cases found <;> simp
    | DynamicList =>
      cases parseDynamicListArgument a arg parsed toBeParsed with
      | none => rfl
      | some r =>
        obtain ⟨found, p, t, sg⟩ := r
        cases found <;> simp
    | Other => rfl
  · simp only [hn, if_false]

theorem argumentsLoop_completeThrough (a : App) (before more : List AutocompleteArg)
    (parsed toBeParsed p t : Str) (suggestions : List AutocompleteSuggestion)
    (h : completeThrough a before parsed toBeParsed = some (p, t)) :
    argumentsLoop a (before ++ more) parsed toBeParsed suggestions =
      argumentsLoop a more p t suggestions := by
  induction before generalizing parsed toBeParsed with
  | nil =>
    simp only [completeThrough, Option.some.injEq, Prod.mk.injEq] at h
    obtain ⟨rfl, rfl⟩ := h
    rfl
  | cons x rest ih =>
    rw [List.cons_append, argumentsLoop_cons]
    rw [completeThrough] at h
    cases hp : parseArgument a x parsed toBeParsed with
    | none => rw [hp] at h; simp at h
    | some r =>
      obtain ⟨found, p2, t2, sg⟩ := r
      rw [hp] at h
      cases found with
      | true => simp at h
      | false => exact ih p2 t2 h

/-- C10: arguments are attempted in declaration order and the first incomplete
one decides: for a node whose space-free trigger heads the input and whose role
passes, with arguments `before ++ ak :: after`, if the arguments of `before`
report complete one after the other, leaving the state `(p, t)`, and `ak`
reports incomplete on `(p, t)` with the suggestions `found`, then the node
yields exactly `found`; the arguments after `ak` play no part. -/
theorem getSuggestions_first_incomplete (a : App) (n : AutocompleteData) (roleID : Str)
    (ht : ' ' ∉ n.Trigger)
    (hrole : roleID = [] ∨ roleID = a.SYSTEM_ADMIN_ROLE_ID ∨ roleID = n.RoleID)
    (before after : List AutocompleteArg) (ak : AutocompleteArg)
    (hargs : n.Arguments = before ++ ak :: after)
    (inputParsed rest p t p2 t2 : Str) (found : List AutocompleteSuggestion)
    (hbefore : completeThrough a before (inputParsed ++ n.Trigger ++ [' ']) rest =
      some (p, t))
    (hak : parseArgument a ak p t = some (true, p2, t2, found)) :
    getSuggestions a [n] inputParsed (n.Trigger ++ [' '] ++ rest) roleID = some found := by
  have h := getSuggestions_single_match a n roleID ht hrole inputParsed rest
  have hlen : ¬ (n.Arguments.length = 0) := by simp [hargs]
  rw [if_neg hlen, hargs] at h
  have h2 := argumentsLoop_completeThrough a before (ak :: after)
    (inputParsed ++ (n.Trigger ++ [' '])) rest p t [] (by simpa using hbefore)
  rw [h2, argumentsLoop_cons, hak] at h
  simpa using h

/-- Witness of C10: on `ban bob al` the text argument is complete and the
list argument suggests `alpha` and `alt`; the third argument plays no part. -/
theorem getSuggestions_first_incomplete_witness :
    ' ' ∉ banCommand.Trigger ∧
      banCommand.Arguments = [textArg] ++ listArg :: [textArg] ∧
      completeThrough testApp [textArg] ("/".toList ++ banCommand.Trigger ++ [' '])
          "bob al".toList = some ("/ban bob ".toList, "al".toList) ∧
      parseArgument testApp listArg "/ban bob ".toList "al".toList =
        some (true, "/ban bob al".toList, [],
          [⟨"/ban bob alpha".toList, [], "level".toList⟩,
           ⟨"/ban bob alt".toList, [], "level".toList⟩]) ∧
      getSuggestions testApp [banCommand] "/".toList
          (banCommand.Trigger ++ [' '] ++ "bob al".toList) [] =
        some [⟨"/ban bob alpha".toList, [], "level".toList⟩,
              ⟨"/ban bob alt".toList, [], "level".toList⟩] :=
  ⟨by decide, by decide, by decide, by decide,
    getSuggestions_first_incomplete testApp banCommand [] (by decide)
      (Or.inl rfl) [textArg] [textArg] listArg (by decide) "/".toList "bob al".toList
      "/ban bob ".toList "al".toList "/ban bob al".toList [] _ (by decide) (by decide)⟩

/-! ## Conservation of the parse state -/

/-- The two outcomes of the list parser: the input is echoed with the
suggestions, or a non-empty token `consumed` is cut off the front of `inp`
(the text to be parsed minus one leading space). -/
theorem parseListItems_cases (items : List AutocompleteStaticListItem)
    (helpText parsed toBeParsed : Str) :
    (∃ found, parseListItems items helpText parsed toBeParsed =
        some (true, parsed ++ toBeParsed, [], found)) ∨
      ∃ consumed remaining, TrimPrefix toBeParsed [' '] = consumed ++ remaining ∧
        consumed ≠ [] ∧
        parseListItems items helpText parsed toBeParsed =
          some (false, parsed ++ consumed, remaining, []) := by
  rcases (maxPrefixLoop_spec (TrimPrefix toBeParsed [' ']) items []).1 with
    h | ⟨i, _, hp, h⟩
  · left
    exact ⟨suggestLoop helpText parsed (TrimPrefix toBeParsed [' ']) items [],
      by simp only [parseListItems, h, ne_eq, not_true_eq_false, if_false]⟩
  · right
    have hp2 := hp
    obtain ⟨rem, hrem⟩ := hp2
    refine ⟨i.Item ++ [' '], rem, hrem.symm, by simp, ?_⟩
    rw [parseListItems_of_maxPrefix items helpText parsed toBeParsed _ h (by simp) hp,
      ← hrem]
    simp

/-- C7, counterexample: on `toBeParsed = " x y"` (a leading space) the text
parser and the list parser both complete on `x ` and return `alreadyParsed =
"cmd x "`, `yetToBeParsed = "y"`: the leading space of `toBeParsed` is in
neither, so `alreadyParsed + yetToBeParsed` is not `parsed + toBeParsed`. -/
theorem parse_conservation_counterexample :
    parseInputTextArgument textArg "cmd ".toList " x y".toList =
        some (false, "cmd x ".toList, "y".toList, emptySuggestion) ∧
      parseListItems [listItem "x"] [] "cmd ".toList " x y".toList =
        some (false, "cmd x ".toList, "y".toList, []) ∧
      "cmd x ".toList ++ "y".toList ≠ "cmd ".toList ++ " x y".toList := by
  decide

/-- C7, amended: the text parser (on a text argument) and the list parser
return `alreadyParsed` and `yetToBeParsed` with `alreadyParsed + yetToBeParsed
= parsed + toBeParsed` when they report incomplete, and with `alreadyParsed +
yetToBeParsed = parsed + inp` when they report complete, `inp` being
`toBeParsed` minus one leading space; so the sum is `parsed + toBeParsed`
whenever `toBeParsed` does not start with a space. -/
theorem parse_conservation (arg : AutocompleteArg) (hint pat : Str)
    (hd : arg.Data = .TextArg hint pat) (items : List AutocompleteStaticListItem)
    (helpText parsed toBeParsed : Str) :
    (∃ r, parseInputTextArgument arg parsed toBeParsed = some r ∧
        r.2.1 ++ r.2.2.1 =
          parsed ++ (if r.1 then toBeParsed else TrimPrefix toBeParsed [' ']) ∧
        (toBeParsed.head? ≠ some ' ' → r.2.1 ++ r.2.2.1 = parsed ++ toBeParsed)) ∧
      ∃ r, parseListItems items helpText parsed toBeParsed = some r ∧
        r.2.1 ++ r.2.2.1 =
          parsed ++ (if r.1 then toBeParsed else TrimPrefix toBeParsed [' ']) ∧
        (toBeParsed.head? ≠ some ' ' → r.2.1 ++ r.2.2.1 = parsed ++ toBeParsed) := by
  constructor
  · rcases parseText_cases arg hint pat hd parsed toBeParsed with
      ⟨_, hr⟩ | ⟨_, consumed, remaining, hin, _, hr⟩
    · exact ⟨_, hr, by simp, fun _ => by simp⟩
    · refine ⟨_, hr, by simp [hin], fun h => ?_⟩
      rw [TrimPrefix_space_of_head _ h] at hin
      simp [hin]
  · rcases parseListItems_cases items helpText parsed toBeParsed with
      ⟨found, hr⟩ | ⟨consumed, remaining, hin, _, hr⟩
    · exact ⟨_, hr, by simp, fun _ => by simp⟩
    · refine ⟨_, hr, by simp [hin], fun h => ?_⟩
      rw [TrimPrefix_space_of_head _ h] at hin
      simp [hin]

/-- Witness of C7 (amended): the text `x y` after `cmd `, without a leading
space. -/
theorem parse_conservation_witness :
    textArg.Data = .TextArg "[message]".toList [] ∧
      (∃ r, parseInputTextArgument textArg "cmd ".toList "x y".toList = some r ∧
        r.2.1 ++ r.2.2.1 =
          "cmd ".toList ++
            (if r.1 then "x y".toList else TrimPrefix "x y".toList [' ']) ∧
        ("x y".toList.head? ≠ some ' ' →
          r.2.1 ++ r.2.2.1 = "cmd ".toList ++ "x y".toList)) ∧
      ∃ r, parseListItems [listItem "x"] [] "cmd ".toList "x y".toList = some r ∧
        r.2.1 ++ r.2.2.1 =
          "cmd ".toList ++
            (if r.1 then "x y".toList else TrimPrefix "x y".toList [' ']) ∧
        ("x y".toList.head? ≠ some ' ' →
          r.2.1 ++ r.2.2.1 = "cmd ".toList ++ "x y".toList) :=
  ⟨rfl, parse_conservation textArg "[message]".toList [] rfl [listItem "x"] []
    "cmd ".toList "x y".toList⟩

/-! ## A node whose arguments are all typed -/

/-- C11: a node with a non-empty argument list whose space-free trigger heads
the input and whose role passes emits nothing when all its arguments report
complete one after the other, whatever text `t` is left after the last one. -/
theorem getSuggestions_all_complete (a : App) (n : AutocompleteData) (roleID : Str)
    (ht : ' ' ∉ n.Trigger)
    (hrole : roleID = [] ∨ roleID = a.SYSTEM_ADMIN_ROLE_ID ∨ roleID = n.RoleID)
    (hne : n.Arguments ≠ []) (inputParsed rest p t : Str)
    (hall : completeThrough a n.Arguments (inputParsed ++ n.Trigger ++ [' ']) rest =
      some (p, t)) :
    getSuggestions a [n] inputParsed (n.Trigger ++ [' '] ++ rest) roleID = some [] := by
  have h := getSuggestions_single_match a n roleID ht hrole inputParsed rest
  have hlen : ¬ (n.Arguments.length = 0) := by
    intro h0; exact hne (List.length_eq_zero.1 h0)
  rw [if_neg hlen] at h
  have h2 := argumentsLoop_completeThrough a n.Arguments []
    (inputParsed ++ (n.Trigger ++ [' '])) rest p t [] (by simpa using hall)
  rw [List.append_nil] at h2
  rw [h2, argumentsLoop] at h
  simpa using h

/-- Witness of C11: the command `echo` on `echo hello world`, where `world`
is left over; `echo hello ` gives the empty list as well. -/
theorem getSuggestions_all_complete_witness :
    ' ' ∉ echoCommand.Trigger ∧ echoCommand.Arguments ≠ [] ∧
      completeThrough testApp echoCommand.Arguments ([] ++ echoCommand.Trigger ++ [' '])
          "hello world".toList = some ("echo hello ".toList, "world".toList) ∧
      getSuggestions testApp [echoCommand] []
          (echoCommand.Trigger ++ [' '] ++ "hello world".toList) [] = some [] ∧
      GetSuggestions testApp [echoCommand] "echo hello ".toList [] = some [] :=
  ⟨by decide, by decide, by decide,
    getSuggestions_all_complete testApp echoCommand [] (by decide) (Or.inl rfl)
      (by decide) [] "hello world".toList "echo hello ".toList "world".toList
      (by decide),
    by decide⟩

/-! ## The accumulated suggestions -/

theorem argumentsLoop_acc (a : App) (args : List AutocompleteArg) (parsed toBeParsed : Str)
    (suggestions : List AutocompleteSuggestion) :
    argumentsLoop a args parsed toBeParsed suggestions =
      (argumentsLoop a args parsed toBeParsed []).map (fun l => suggestions ++ l) := by
  induction args generalizing parsed toBeParsed with
  | nil => simp [argumentsLoop]
  | cons x rest ih =>
    rw [argumentsLoop_cons, argumentsLoop_cons a x rest parsed toBeParsed []]
    cases parseArgument a x parsed toBeParsed with
    | none => rfl
    | some r =>
      obtain ⟨found, p, t, sg⟩ := r
      cases found with
      | true => simp
      | false => exact ih p t

theorem commandStep_acc (a : App) (c : AutocompleteData)
    (inputParsed inputToBeParsed roleID : Str) (index : Int)
    (suggestions : List AutocompleteSuggestion) :
    commandStep a c inputParsed inputToBeParsed roleID index suggestions =
      (commandStep a c inputParsed inputToBeParsed roleID index []).map
        (fun l => suggestions ++ l) := by
  cases c with
  | mk trigger hint helpText commandRoleID arguments subCommands =>
    simp only [commandStep, getSuggestions_subCommands]
    cases sliceTo inputToBeParsed index with
    | none => rfl
    | some firstToken =>
      simp only [Option.bind_eq_bind, Option.some_bind]
      by_cases ht : trigger = firstToken
      · by_cases hr : roleID ≠ [] ∧ roleID ≠ a.SYSTEM_ADMIN_ROLE_ID ∧
            roleID ≠ commandRoleID
        · simp [ht, hr]
        · simp only [ht, ne_eq, not_true_eq_false, if_false, hr]
          cases sliceFrom inputToBeParsed (index + 1) with
          | none => rfl
          | some toBeParsed =>
            cases sliceTo inputToBeParsed (index + 1) with
            | none => rfl
            | some consumed =>
              simp only [Option.some_bind]
              by_cases hl : arguments.length = 0
              · simp only [hl, if_true]
                by_cases hi : Index toBeParsed [' '] = -1
                · simp [hi]
                · simp only [hi, if_false]
                  cases commandsLoop a subCommands (inputParsed ++ consumed) toBeParsed
                      roleID (Index toBeParsed [' ']) [] with
                  | none => rfl
                  | some sub => simp
              · simp only [hl, if_false]
                exact argumentsLoop_acc a arguments _ _ suggestions
      · simp [ht]

theorem commandsLoop_acc (a : App) (commands : List AutocompleteData)
    (inputParsed inputToBeParsed roleID : Str) (index : Int)
    (suggestions : List AutocompleteSuggestion) :
    commandsLoop a commands inputParsed inputToBeParsed roleID index suggestions =
      (commandsLoop a commands inputParsed inputToBeParsed roleID index []).map
        (fun l => suggestions ++ l) := by
  induction commands generalizing suggestions with
  | nil => simp [commandsLoop]
  | cons c rest ih =>
    rw [commandsLoop, commandsLoop, commandStep_acc]
    cases commandStep a c inputParsed inputToBeParsed roleID index [] with
    | none => rfl
    | some l =>
      simp only [Option.map_some', Option.bind_eq_bind, Option.some_bind]
      rw [ih (suggestions ++ l), ih l]
      cases commandsLoop a rest inputParsed inputToBeParsed roleID index [] with
      | none => rfl
      | some l2 => simp

theorem commandsLoop_append (a : App) (xs ys : List AutocompleteData)
    (inputParsed inputToBeParsed roleID : Str) (index : Int)
    (suggestions : List AutocompleteSuggestion) :
    commandsLoop a (xs ++ ys) inputParsed inputToBeParsed roleID index suggestions =
      (commandsLoop a xs inputParsed inputToBeParsed roleID index suggestions).bind
        (fun l => commandsLoop a ys inputParsed inputToBeParsed roleID index l) := by
  induction xs generalizing suggestions with
  | nil => simp [commandsLoop]
  | cons c rest ih =>
    rw [List.cons_append, commandsLoop, commandsLoop]
    cases commandStep a c inputParsed inputToBeParsed roleID index suggestions with
    | none => rfl
    | some l =>
      simp only [Option.bind_eq_bind, Option.some_bind]
      exact ih l

/-- The matcher on a concatenation of command lists: both parts are matched
and their suggestions concatenated; a panic in either part is a panic. -/
theorem getSuggestions_append_bind (a : App) (xs ys : List AutocompleteData)
    (inputParsed inputToBeParsed roleID : Str) :
    getSuggestions a (xs ++ ys) inputParsed inputToBeParsed roleID =
      (getSuggestions a xs inputParsed inputToBeParsed roleID).bind (fun l1 =>
        (getSuggestions a ys inputParsed inputToBeParsed roleID).map
          (fun l2 => l1 ++ l2)) := by
  unfold getSuggestions
  by_cases hi : Index inputToBeParsed [' '] = -1
  · simp only [hi, if_true, noSpaceLoop_eq, List.nil_append, List.filter_append,
      List.map_append, Option.some_bind, Option.map_some']
  · simp only [hi, if_false, commandsLoop_append]
    cases commandsLoop a xs inputParsed inputToBeParsed roleID
        (Index inputToBeParsed [' ']) [] with
    | none => rfl
    | some l1 =>
      simp only [Option.some_bind]
      exact commandsLoop_acc a ys inputParsed inputToBeParsed roleID _ l1

/-- Two nodes that the matcher treats alike when each stands alone are treated
alike inside any command list. -/
theorem getSuggestions_congr_node (a : App) (n m : AutocompleteData)
    (h : ∀ inputParsed inputToBeParsed roleID,
      getSuggestions a [n] inputParsed inputToBeParsed roleID =
        getSuggestions a [m] inputParsed inputToBeParsed roleID)
    (before after : List AutocompleteData) (inputParsed inputToBeParsed roleID : Str) :
    getSuggestions a (before ++ n :: after) inputParsed inputToBeParsed roleID =
      getSuggestions a (before ++ m :: after) inputParsed inputToBeParsed roleID := by
  have e1 : before ++ n :: after = before ++ ([n] ++ after) := by simp
  have e2 : before ++ m :: after = before ++ ([m] ++ after) := by simp
  rw [e1, e2, getSuggestions_append_bind, getSuggestions_append_bind a before,
    getSuggestions_append_bind a [n], getSuggestions_append_bind a [m], h]

/-- Two nodes with the same trigger, hint, help text and role whose argument
loops agree and whose argument lists are both non-empty are treated alike by
the matcher, whatever their sub-commands are. -/
theorem getSuggestions_single_congr_args (a : App)
    (trigger hint helpText commandRoleID : Str) (args1 args2 : List AutocompleteArg)
    (subs1 subs2 : List AutocompleteData) (h1 : args1 ≠ []) (h2 : args2 ≠ [])
    (hloop : ∀ parsed toBeParsed suggestions,
      argumentsLoop a args1 parsed toBeParsed suggestions =
        argumentsLoop a args2 parsed toBeParsed suggestions)
    (inputParsed inputToBeParsed roleID : Str) :
    getSuggestions a [.mk trigger hint helpText commandRoleID args1 subs1]
        inputParsed inputToBeParsed roleID =
      getSuggestions a [.mk trigger hint helpText commandRoleID args2 subs2]
        inputParsed inputToBeParsed roleID := by
  have l1 : ¬ (args1.length = 0) := fun h0 => h1 (List.length_eq_zero.1 h0)
  have l2 : ¬ (args2.length = 0) := fun h0 => h2 (List.length_eq_zero.1 h0)
  unfold getSuggestions
  by_cases hi : Index inputToBeParsed [' '] = -1
  · simp only [hi, if_true, noSpaceLoop, AutocompleteData.Trigger,
      AutocompleteData.RoleID, AutocompleteData.Hint, AutocompleteData.HelpText]
  · simp only [hi, if_false, commandsLoop_single, commandStep, l1, l2, hloop]

/-! ## A failed fetch -/

theorem parseArgument_fetch_failure (a : App) (arg : AutocompleteArg) (url : Str)
    (hd : arg.Data = .DynamicListArg url) (hf : a.fetch url = none)
    (hty : arg.Type_ = .DynamicList) (parsed toBeParsed : Str) :
    parseArgument a arg parsed toBeParsed = some (false, parsed, toBeParsed, []) := by
  unfold parseArgument
  by_cases hn : arg.Name = []
  · simp [hn, hty, parseDynamicListArgument, hd, hf]
  · simp [hn]

theorem argumentsLoop_fetch_failure (a : App) (arg : AutocompleteArg) (url : Str)
    (hd : arg.Data = .DynamicListArg url) (hf : a.fetch url = none)
    (hty : arg.Type_ = .DynamicList) (before after : List AutocompleteArg)
    (parsed toBeParsed : Str) (suggestions : List AutocompleteSuggestion) :
    argumentsLoop a (before ++ arg :: after) parsed toBeParsed suggestions =
      argumentsLoop a (before ++ after) parsed toBeParsed suggestions := by
  induction before generalizing parsed toBeParsed with
  | nil =>
    rw [List.nil_append, List.nil_append, argumentsLoop_cons,
      parseArgument_fetch_failure a arg url hd hf hty]
  | cons x rest ih =>
    rw [List.cons_append, List.cons_append, argumentsLoop_cons, argumentsLoop_cons]
    cases parseArgument a x parsed toBeParsed with
    | none => rfl
    | some r =>
      obtain ⟨found, p, t, sg⟩ := r
      cases found with
      | true => rfl
      | false => exact ih p t

/-- The request of a dynamic list argument returned an error.  Then
`parseDynamicListArgument` returns `found = false`, `alreadyParsed =
parsed`, `yetToBeParsed = toBeParsed` and no suggestion, on every state; the
argument loop of a node runs as if the argument were not in the list; a node
that keeps another argument is matched as the node without this argument; and
on a matching input the node yields what the loop over the other arguments
yields (nothing at all when there is no other argument), without descending
into its sub-commands. -/
theorem parseDynamicListArgument_fetch_failure (a : App) (arg : AutocompleteArg)
    (url : Str) (hd : arg.Data = .DynamicListArg url) (hf : a.fetch url = none) :
    (∀ parsed toBeParsed,
        parseDynamicListArgument a arg parsed toBeParsed =
          some (false, parsed, toBeParsed, [])) ∧
      (arg.Type_ = .DynamicList →
        (∀ before after parsed toBeParsed suggestions,
          argumentsLoop a (before ++ arg :: after) parsed toBeParsed suggestions =
            argumentsLoop a (before ++ after) parsed toBeParsed suggestions) ∧
        (∀ trigger hint helpText commandRoleID subCommands before after,
          before ++ after ≠ [] →
          ∀ commandsBefore commandsAfter inputParsed inputToBeParsed roleID,
            getSuggestions a
                (commandsBefore ++
                  .mk trigger hint helpText commandRoleID (before ++ arg :: after)
                    subCommands :: commandsAfter)
                inputParsed inputToBeParsed roleID =
              getSuggestions a
                (commandsBefore ++
                  .mk trigger hint helpText commandRoleID (before ++ after)
                    subCommands :: commandsAfter)
                inputParsed inputToBeParsed roleID) ∧
        (∀ trigger hint helpText commandRoleID subCommands before after roleID,
          ' ' ∉ trigger →
          (roleID = [] ∨ roleID = a.SYSTEM_ADMIN_ROLE_ID ∨ roleID = commandRoleID) →
          ∀ inputParsed rest,
            getSuggestions a
                [.mk trigger hint helpText commandRoleID (before ++ arg :: after)
                  subCommands]
                inputParsed (trigger ++ [' '] ++ rest) roleID =
              argumentsLoop a (before ++ after) (inputParsed ++ trigger ++ [' ']) rest
                [])) := by
  refine ⟨fun parsed toBeParsed => by simp [parseDynamicListArgument, hd, hf],
    fun hty => ⟨?_, ?_, ?_⟩⟩
  · exact argumentsLoop_fetch_failure a arg url hd hf hty
  · intro trigger hint helpText commandRoleID subCommands before after hne
      commandsBefore commandsAfter inputParsed inputToBeParsed roleID
    exact getSuggestions_congr_node a _ _
      (getSuggestions_single_congr_args a trigger hint helpText commandRoleID _ _
        subCommands subCommands (by simp) hne
        (argumentsLoop_fetch_failure a arg url hd hf hty before after))
      commandsBefore commandsAfter inputParsed inputToBeParsed roleID
  · intro trigger hint helpText commandRoleID subCommands before after roleID ht hrole
      inputParsed rest
    have h := getSuggestions_single_match a
      (.mk trigger hint helpText commandRoleID (before ++ arg :: after) subCommands)
      roleID ht hrole inputParsed rest
    simp only [AutocompleteData.Trigger, AutocompleteData.Arguments] at h
    have hlen : ¬ ((before ++ arg :: after).length = 0) := by simp
    rw [if_neg hlen, argumentsLoop_fetch_failure a arg url hd hf hty] at h
    simpa using h

/-- The dynamic list argument of the fixtures, whose request returns an error
in `testApp`. -/
theorem parseDynamicListArgument_fetch_failure_witness :
    dynamicArg.Data = .DynamicListArg "http://example/users".toList ∧
      testApp.fetch "http://example/users".toList = none ∧
      parseDynamicListArgument testApp dynamicArg "mute ".toList "bo".toList =
        some (false, "mute ".toList, "bo".toList, []) ∧
      getSuggestions testApp
          [.mk "mute".toList [] [] [] ([] ++ dynamicArg :: [textArg]) []]
          [] ("mute".toList ++ [' '] ++ "bo".toList) [] =
        argumentsLoop testApp ([] ++ [textArg]) ([] ++ "mute".toList ++ [' '])
          "bo".toList [] :=
  ⟨rfl, rfl,
    (parseDynamicListArgument_fetch_failure testApp dynamicArg
      "http://example/users".toList rfl rfl).1 "mute ".toList "bo".toList,
    ((parseDynamicListArgument_fetch_failure testApp dynamicArg
      "http://example/users".toList rfl rfl).2 rfl).2.2 "mute".toList [] [] [] [] []
      [textArg] [] (by decide) (Or.inl rfl) [] "bo".toList⟩

/-! ## Nodes with an empty role -/

/-- C13, counterexample: the command `echo` has the empty `RoleID`, yet for the
role `moderator` it is not suggested on the input `ech`, although its trigger
starts with it, and it is not descended into on the input `echo `, which for
the empty role yields the suggestion of its text argument. -/
theorem empty_role_node_counterexample :
    echoCommand.RoleID = [] ∧ ' ' ∉ "ech".toList ∧
      "ech".toList <+: echoCommand.Trigger ∧
      getSuggestions testApp [echoCommand] [] "ech".toList "moderator".toList = some [] ∧
      getSuggestions testApp [echoCommand] [] "echo ".toList "moderator".toList =
        some [] ∧
      getSuggestions testApp [echoCommand] [] "echo ".toList [] =
        some [⟨"echo ".toList, "[message]".toList, "message".toList⟩] := by
  decide

/-- C13, amended: a node whose `RoleID` is empty is visible to the empty role
and to the admin role: it is among the suggestions when its trigger starts
with a space-free input, and it is descended into (sub-commands or arguments)
when its space-free trigger is the first token of the input.  For any other
role it is matched like every node of a different role: it can be dropped from
the command list without changing the result. -/
theorem getSuggestions_empty_role_node (a : App) (n : AutocompleteData)
    (hn : n.RoleID = []) (roleID : Str) :
    ((roleID = [] ∨ roleID = a.SYSTEM_ADMIN_ROLE_ID) →
        (∀ commands inputParsed inputToBeParsed, n ∈ commands →
          ' ' ∉ inputToBeParsed → inputToBeParsed <+: n.Trigger →
          ∃ l, getSuggestions a commands inputParsed inputToBeParsed roleID = some l ∧
            (⟨inputParsed ++ n.Trigger, n.Hint, n.HelpText⟩ : AutocompleteSuggestion) ∈ l) ∧
        (' ' ∉ n.Trigger → ∀ inputParsed rest,
          getSuggestions a [n] inputParsed (n.Trigger ++ [' '] ++ rest) roleID =
            if n.Arguments.length = 0 then
              getSuggestions a n.SubCommands (inputParsed ++ n.Trigger ++ [' ']) rest
                roleID
            else
              argumentsLoop a n.Arguments (inputParsed ++ n.Trigger ++ [' ']) rest [])) ∧
      ((roleID ≠ [] ∧ roleID ≠ a.SYSTEM_ADMIN_ROLE_ID) →
        ∀ before after inputParsed inputToBeParsed,
          getSuggestions a (before ++ n :: after) inputParsed inputToBeParsed roleID =
            getSuggestions a (before ++ after) inputParsed inputToBeParsed roleID) := by
  refine ⟨fun hr => ⟨?_, ?_⟩, ?_⟩
  · intro commands inputParsed inputToBeParsed hmem hsp hpre
    have hg : getSuggestions a commands inputParsed inputToBeParsed roleID =
        some ((commands.filter (fun c => decide (inputToBeParsed <+: c.Trigger ∧
            (c.RoleID = roleID ∨ roleID = a.SYSTEM_ADMIN_ROLE_ID ∨ roleID = [])))).map
          (fun c => ⟨inputParsed ++ c.Trigger, c.Hint, c.HelpText⟩)) := by
      unfold getSuggestions
      simp only [Index_single_of_not_mem _ _ hsp, if_true, noSpaceLoop_eq,
        List.nil_append]
    refine ⟨_, hg, List.mem_map.2 ⟨n, List.mem_filter.2 ⟨hmem, ?_⟩, rfl⟩⟩
    have : roleID = a.SYSTEM_ADMIN_ROLE_ID ∨ roleID = [] := hr.symm
    simp only [decide_eq_true_eq]
    exact ⟨hpre, Or.inr this⟩
  · intro ht inputParsed rest
    have hrole : roleID = [] ∨ roleID = a.SYSTEM_ADMIN_ROLE_ID ∨ roleID = n.RoleID := by
      rcases hr with h | h
      · exact Or.inl h
      · exact Or.inr (Or.inl h)
    have h := getSuggestions_single_match a n roleID ht hrole inputParsed rest
    simpa using h
  · rintro ⟨h1, h2⟩ before after inputParsed inputToBeParsed
    have hne : ¬ n.RoleID = roleID := by rw [hn]; exact fun e => h1 e.symm
    rw [← getSuggestions_keepRole a roleID h1 h2 (before ++ n :: after),
      ← getSuggestions_keepRole a roleID h1 h2 (before ++ after), keepRoleList_append,
      keepRoleList_append]
    congr 2
    rw [keepRoleList, if_neg hne]

/-- Witness of C13 (amended): the command `echo`, whose `RoleID` is empty. -/
theorem getSuggestions_empty_role_node_witness :
    echoCommand.RoleID = [] ∧
      (∃ l, getSuggestions testApp [echoCommand] [] "ech".toList
            testApp.SYSTEM_ADMIN_ROLE_ID = some l ∧
          (⟨[] ++ echoCommand.Trigger, echoCommand.Hint, echoCommand.HelpText⟩ :
            AutocompleteSuggestion) ∈ l) ∧
      getSuggestions testApp ([] ++ echoCommand :: [kickCommand]) [] "kick ".toList
          "moderator".toList =
        getSuggestions testApp ([] ++ [kickCommand]) [] "kick ".toList
          "moderator".toList :=
  ⟨rfl,
    ((getSuggestions_empty_role_node testApp echoCommand rfl
      testApp.SYSTEM_ADMIN_ROLE_ID).1 (Or.inr rfl)).1 [echoCommand] [] "ech".toList
      (by simp) (by decide) (by decide),
    (getSuggestions_empty_role_node testApp echoCommand rfl "moderator".toList).2
      ⟨by decide, by decide⟩ [] [kickCommand] [] "kick ".toList⟩

/-! ## End to end on `echo` -/

/-- C14, counterexample: on the command tree with the one command `echo`
(empty `RoleID`, one positional text argument), `GetSuggestions` with the user
input `echo hello` and the empty role returns one suggestion, not the empty
list. -/
theorem echo_hello_counterexample :
    GetSuggestions testApp [echoCommand] "echo hello".toList [] =
        some [⟨"echo hello".toList, "[message]".toList, "message".toList⟩] ∧
      GetSuggestions testApp [echoCommand] "echo hello".toList [] ≠ some [] := by
  decide

/-- C14, amended: on the command tree with the one command `echo` (empty
`RoleID`, one positional text argument), `GetSuggestions` with the user input
`echo hello` returns, for the empty role and for the admin role, exactly one
suggestion: the input `echo hello` itself with the hint of the text argument
and the help text of the argument; for any other role it returns the empty
list, the node's empty `RoleID` not being that role. -/
theorem GetSuggestions_echo_hello (a : App) (hint helpText argHelpText argHint pat : Str)
    (required : Bool) (subCommands : List AutocompleteData) (roleID : Str) :
    GetSuggestions a
        [.mk "echo".toList hint helpText []
          [⟨[], argHelpText, .TextInput, required, .TextArg argHint pat⟩] subCommands]
        "echo hello".toList roleID =
      if roleID = [] ∨ roleID = a.SYSTEM_ADMIN_ROLE_ID then
        some [⟨"echo hello".toList, argHint, argHelpText⟩]
      else some [] := by
  have hmatch : ∀ r : Str, r = [] ∨ r = a.SYSTEM_ADMIN_ROLE_ID →
      getSuggestions a
          [.mk "echo".toList hint helpText []
            [⟨[], argHelpText, .TextInput, required, .TextArg argHint pat⟩] subCommands]
          [] ("echo".toList ++ ' ' :: "hello".toList) r =
        some [⟨"echo hello".toList, argHint, argHelpText⟩] := by
    intro r hr
    have hrole : r = [] ∨ r = a.SYSTEM_ADMIN_ROLE_ID ∨ r = [] := by
      rcases hr with h | h
      · exact Or.inl h
      · exact Or.inr (Or.inl h)
    refine (getSuggestions_single_match a
      (.mk "echo".toList hint helpText []
        [⟨[], argHelpText, .TextInput, required, .TextArg argHint pat⟩] subCommands)
      r (show ' ' ∉ "echo".toList by decide) hrole [] "hello".toList).trans ?_
    have hlen : ¬ (([⟨[], argHelpText, .TextInput, required, .TextArg argHint pat⟩] :
        List AutocompleteArg).length = 0) := by simp
    simp only [AutocompleteData.Arguments, AutocompleteData.Trigger, hlen, if_false]
    rw [argumentsLoop_cons, parseArgument]
    simp only [if_true]
    rw [parseText_word_open _ argHint pat rfl _ "hello".toList 'h' "ello".toList
      (by decide) (by decide) (by decide)]
    rfl
  unfold GetSuggestions
  by_cases hr : roleID = [] ∨ roleID = a.SYSTEM_ADMIN_ROLE_ID
  · rw [if_pos hr]
    exact hmatch roleID hr
  · rw [if_neg hr]
    have h1 : roleID ≠ [] := fun h => hr (Or.inl h)
    have h2 : roleID ≠ a.SYSTEM_ADMIN_ROLE_ID := fun h => hr (Or.inr h)
    have hi : Index "echo hello".toList [' '] ≠ -1 := by decide
    have hne : ¬ ((4 : Int) = -1) := by decide
    have h := commandStep_role_mismatch a roleID h1 h2
      (.mk "echo".toList hint helpText []
        [⟨[], argHelpText, .TextInput, required, .TextArg argHint pat⟩] subCommands)
      (fun e => h1 e.symm) [] "echo hello".toList hi []
    unfold getSuggestions
    simp only [hi, if_false, commandsLoop_single]
    exact h

/-! ## No panic on a well-formed tree -/

theorem parseArgument_isSome (a : App) (arg : AutocompleteArg)
    (h : argWellFormed arg = true) (parsed toBeParsed : Str) :
    ∃ r, parseArgument a arg parsed toBeParsed = some r := by
  unfold parseArgument
  by_cases hn : arg.Name = []
  · simp only [hn, if_true]
    unfold argWellFormed at h
    cases hty : arg.Type_ <;> cases hd : arg.Data <;> simp only [hty, hd] at h ⊢ <;>
      first
      | exact absurd h (by decide)
      | exact ⟨_, rfl⟩
      | skip
    · rename_i hint pat
      rcases parseText_cases arg hint pat hd parsed toBeParsed with
        ⟨_, hr⟩ | ⟨_, consumed, remaining, _, _, hr⟩ <;> rw [hr] <;> exact ⟨_, rfl⟩
    · rename_i items
      simp only [parseStaticListArgument, hd]
      rcases parseListItems_cases items arg.HelpText parsed toBeParsed with
        ⟨found, hr⟩ | ⟨consumed, remaining, _, _, hr⟩ <;> rw [hr] <;> exact ⟨_, rfl⟩
    · rename_i url
      simp only [parseDynamicListArgument, hd]
      cases a.fetch url with
      | none => exact ⟨_, rfl⟩
      | some items =>
        rcases parseListItems_cases items arg.HelpText parsed toBeParsed with
          ⟨found, hr⟩ | ⟨consumed, remaining, _, _, hr⟩ <;>
          simp only [hr] <;> exact ⟨_, rfl⟩
  · simp only [hn, if_false]
    exact ⟨_, rfl⟩

theorem argumentsLoop_isSome (a : App) (args : List AutocompleteArg)
    (h : args.all argWellFormed = true) (parsed toBeParsed : Str)
    (suggestions : List AutocompleteSuggestion) :
    ∃ l, argumentsLoop a args parsed toBeParsed suggestions = some l := by
  induction args generalizing parsed toBeParsed with
  | nil => exact ⟨_, rfl⟩
  | cons x rest ih =>
    simp only [List.all_cons, Bool.and_eq_true] at h
    rw [argumentsLoop_cons]
    obtain ⟨r, hr⟩ := parseArgument_isSome a x h.1 parsed toBeParsed
    rw [hr]
    obtain ⟨found, p, t, sg⟩ := r
    cases found with
    | true => exact ⟨_, rfl⟩
    | false => exact ih h.2 p t

mutual

theorem commandStep_isSome (a : App) :
    ∀ (c : AutocompleteData) (_ : wellFormedNode c = true)
      (inputParsed inputToBeParsed roleID : Str)
      (_ : Index inputToBeParsed [' '] ≠ -1)
      (suggestions : List AutocompleteSuggestion),
      ∃ l, commandStep a c inputParsed inputToBeParsed roleID
        (Index inputToBeParsed [' ']) suggestions = some l
  | .mk trigger hint helpText commandRoleID arguments subCommands, hwf,
      inputParsed, inputToBeParsed, roleID, hi, suggestions => by
    simp only [wellFormedNode, Bool.and_eq_true] at hwf
    rcases Index_single_cases inputToBeParsed ' ' with ⟨_, h2⟩ | ⟨w, r, h1, _, h3⟩
    · exact absurd h2 hi
    · obtain ⟨s1, s2, s3⟩ := slices_at_first w r ' '
      rw [← h1, ← h3] at s1 s2 s3
      simp only [commandStep, s1, s2, s3, Option.bind_eq_bind, Option.some_bind]
      by_cases ht : trigger = w
      · by_cases hr : roleID ≠ [] ∧ roleID ≠ a.SYSTEM_ADMIN_ROLE_ID ∧
            roleID ≠ commandRoleID
        · simp only [ht, ne_eq, not_true_eq_false, if_false, hr, and_self, if_true]
          exact ⟨_, rfl⟩
        · simp only [ht, ne_eq, not_true_eq_false, if_false, hr]
          by_cases hl : arguments.length = 0
          · simp only [hl, if_true]
            by_cases hi2 : Index r [' '] = -1
            · simp only [hi2, if_true, Option.some_bind]
              exact ⟨_, rfl⟩
            · simp only [hi2, if_false]
              obtain ⟨l, hl2⟩ := commandsLoop_isSome a subCommands hwf.2
                (inputParsed ++ (w ++ [' '])) r roleID hi2 []
              rw [hl2]
              exact ⟨_, rfl⟩
          · simp only [hl, if_false]
            exact argumentsLoop_isSome a arguments hwf.1 _ _ suggestions
      · simp only [ne_eq, ht, not_false_eq_true, if_true]
        exact ⟨_, rfl⟩

theorem commandsLoop_isSome (a : App) :
    ∀ (commands : List AutocompleteData) (_ : wellFormedList commands = true)
      (inputParsed inputToBeParsed roleID : Str)
      (_ : Index inputToBeParsed [' '] ≠ -1)
      (suggestions : List AutocompleteSuggestion),
      ∃ l, commandsLoop a commands inputParsed inputToBeParsed roleID
        (Index inputToBeParsed [' ']) suggestions = some l
  | [], _, _, _, _, _, suggestions => ⟨suggestions, by simp only [commandsLoop]⟩
  | c :: rest, hwf, inputParsed, inputToBeParsed, roleID, hi, suggestions => by
    simp only [wellFormedList, Bool.and_eq_true] at hwf
    obtain ⟨l, hl⟩ := commandStep_isSome a c hwf.1 inputParsed inputToBeParsed roleID hi
      suggestions
    simp only [commandsLoop, hl, Option.bind_eq_bind, Option.some_bind]
    exact commandsLoop_isSome a rest hwf.2 inputParsed inputToBeParsed roleID hi l

end

/-- No panic over values: on a command tree (its pointers taken as values) in
which every argument's payload has the kind its `Type` declares,
`getSuggestions` (and so `GetSuggestions`) returns a
suggestion list for every input, role and fetch outcome: no slice or index
leaves its string and no type assertion fails.  The text parser on a text
payload and the list parser on any item list return on every state as well. -/
theorem getSuggestions_never_panics (a : App) (commands : List AutocompleteData)
    (hwf : wellFormedList commands = true) :
    (∀ inputParsed inputToBeParsed roleID,
        ∃ l, getSuggestions a commands inputParsed inputToBeParsed roleID = some l) ∧
      (∀ userInput roleID, ∃ l, GetSuggestions a commands userInput roleID = some l) ∧
      (∀ (arg : AutocompleteArg) hint pat parsed toBeParsed,
        arg.Data = .TextArg hint pat →
        ∃ r, parseInputTextArgument arg parsed toBeParsed = some r) ∧
      ∀ items helpText parsed toBeParsed,
        ∃ r, parseListItems items helpText parsed toBeParsed = some r := by
  have hg : ∀ inputParsed inputToBeParsed roleID,
      ∃ l, getSuggestions a commands inputParsed inputToBeParsed roleID = some l := by
    intro inputParsed inputToBeParsed roleID
    unfold getSuggestions
    by_cases hi : Index inputToBeParsed [' '] = -1
    · simp only [hi, if_true]
      exact ⟨_, rfl⟩
    · simp only [hi, if_false]
      exact commandsLoop_isSome a commands hwf inputParsed inputToBeParsed roleID hi []
  refine ⟨hg, fun userInput roleID => hg [] userInput roleID, ?_, ?_⟩
  · intro arg hint pat parsed toBeParsed hd
    rcases parseText_cases arg hint pat hd parsed toBeParsed with
      ⟨_, hr⟩ | ⟨_, consumed, remaining, _, _, hr⟩ <;> exact ⟨_, hr⟩
  · intro items helpText parsed toBeParsed
    rcases parseListItems_cases items helpText parsed toBeParsed with
      ⟨found, hr⟩ | ⟨consumed, remaining, _, _, hr⟩ <;> exact ⟨_, hr⟩

/-- The commands `echo`, `kick`, `ban` and `mute` of the fixtures are well
formed, and the matcher returns on them. -/
theorem getSuggestions_never_panics_witness :
    wellFormedList [echoCommand, kickCommand, banCommand, muteCommand] = true ∧
      (∃ l, GetSuggestions testApp [echoCommand, kickCommand, banCommand, muteCommand]
        "ban  \"a b\"x al".toList [] = some l) ∧
      GetSuggestions testApp [echoCommand, kickCommand, banCommand, muteCommand]
          "ban \"a b\" al".toList [] =
        some [⟨"ban \"a b\" alpha".toList, [], "level".toList⟩,
              ⟨"ban \"a b\" alt".toList, [], "level".toList⟩] :=
  ⟨by decide,
    (getSuggestions_never_panics testApp
      [echoCommand, kickCommand, banCommand, muteCommand] (by decide)).2.1
      "ban  \"a b\"x al".toList [],
    by decide⟩

/-! ## Sub-commands and named arguments of a node with arguments -/

/-- C16: a node with a non-empty argument list makes no use of its
sub-commands: replacing them by any other list changes the result of
`getSuggestions` for no command list around the node, no input and no role;
nothing is assumed of the arguments, which may all be named. -/
theorem getSuggestions_subCommands_unused (a : App)
    (trigger hint helpText commandRoleID : Str) (arguments : List AutocompleteArg)
    (hne : arguments ≠ []) (subCommands others : List AutocompleteData)
    (before after : List AutocompleteData) (inputParsed inputToBeParsed roleID : Str) :
    getSuggestions a
        (before ++ .mk trigger hint helpText commandRoleID arguments subCommands :: after)
        inputParsed inputToBeParsed roleID =
      getSuggestions a
        (before ++ .mk trigger hint helpText commandRoleID arguments others :: after)
        inputParsed inputToBeParsed roleID := by
  apply getSuggestions_congr_node
  intro ip itbp r
  exact getSuggestions_single_congr_args a trigger hint helpText commandRoleID arguments
    arguments subCommands others hne hne (fun _ _ _ => rfl) ip itbp r

/-- Witness of C16: the command `mute ` with and without its sub-command, and
with named arguments only. -/
theorem getSuggestions_subCommands_unused_witness :
    [dynamicArg, textArg] ≠ [] ∧ [namedArg] ≠ [] ∧
      getSuggestions testApp
          ([echoCommand] ++
            .mk "mute".toList [] [] [] [dynamicArg, textArg]
              [.mk "all".toList [] [] [] [listArg] []] :: [])
          [] "mute all".toList [] =
        getSuggestions testApp
          ([echoCommand] ++ .mk "mute".toList [] [] [] [dynamicArg, textArg] [] :: [])
          [] "mute all".toList [] ∧
      getSuggestions testApp
          ([] ++ .mk "mute".toList [] [] [] [namedArg] [killCommand] :: [])
          [] "mute k".toList [] =
        getSuggestions testApp
          ([] ++ .mk "mute".toList [] [] [] [namedArg] [] :: [])
          [] "mute k".toList [] ∧
      getSuggestions testApp [.mk "mute".toList [] [] [] [namedArg] [killCommand]]
          [] "mute k".toList [] = some [] :=
  ⟨by decide, by decide,
    getSuggestions_subCommands_unused testApp "mute".toList [] [] [] [dynamicArg, textArg]
      (by decide) [.mk "all".toList [] [] [] [listArg] []] [] [echoCommand] []
      [] "mute all".toList [],
    getSuggestions_subCommands_unused testApp "mute".toList [] [] [] [namedArg]
      (by decide) [killCommand] [] [] [] [] "mute k".toList [],
    by decide⟩

theorem argumentsLoop_filter_positional (a : App) (args : List AutocompleteArg)
    (parsed toBeParsed : Str) (suggestions : List AutocompleteSuggestion) :
    argumentsLoop a (args.filter (fun x => decide (x.Name = []))) parsed toBeParsed
        suggestions =
      argumentsLoop a args parsed toBeParsed suggestions := by
  induction args generalizing parsed toBeParsed with
  | nil => rfl
  | cons x rest ih =>
    by_cases hn : x.Name = []
    · rw [List.filter_cons_of_pos (by simpa using hn), argumentsLoop_cons,
        argumentsLoop_cons]
      cases parseArgument a x parsed toBeParsed with
      | none => rfl
      | some r =>
        obtain ⟨found, p, t, sg⟩ := r
        cases found with
        | true => rfl
        | false => exact ih p t
    · rw [List.filter_cons_of_neg (by simpa using hn), ih]
      conv_rhs => rw [argumentsLoop]
      rw [if_neg hn]

/-- C17: named arguments are inert: for a node with at least one positional
argument, deleting every named argument from its argument list, wherever they
stand, changes the result of `getSuggestions` for no command list around the
node, no input and no role. -/
theorem getSuggestions_named_inert (a : App)
    (trigger hint helpText commandRoleID : Str) (arguments : List AutocompleteArg)
    (hpos : ∃ x ∈ arguments, x.Name = []) (subCommands : List AutocompleteData)
    (before after : List AutocompleteData) (inputParsed inputToBeParsed roleID : Str) :
    getSuggestions a
        (before ++
          .mk trigger hint helpText commandRoleID
            (arguments.filter (fun x => decide (x.Name = []))) subCommands :: after)
        inputParsed inputToBeParsed roleID =
      getSuggestions a
        (before ++ .mk trigger hint helpText commandRoleID arguments subCommands :: after)
        inputParsed inputToBeParsed roleID := by
  obtain ⟨x, hx, hn⟩ := hpos
  have h1 : arguments.filter (fun x => decide (x.Name = [])) ≠ [] :=
    List.ne_nil_of_mem (List.mem_filter.2 ⟨hx, by simpa using hn⟩)
  have h2 : arguments ≠ [] := List.ne_nil_of_mem hx
  apply getSuggestions_congr_node
  intro ip itbp r
  exact getSuggestions_single_congr_args a trigger hint helpText commandRoleID _ _
    subCommands subCommands h1 h2 (argumentsLoop_filter_positional a arguments) ip itbp r

/-- Witness of C17: a command with the arguments named, text, named. -/
theorem getSuggestions_named_inert_witness :
    (∃ x ∈ [namedArg, textArg, namedArg], x.Name = []) ∧
      [namedArg, textArg, namedArg].filter (fun x => decide (x.Name = [])) = [textArg] ∧
      getSuggestions testApp
          ([] ++
            .mk "say".toList [] [] []
              ([namedArg, textArg, namedArg].filter (fun x => decide (x.Name = []))) []
              :: [])
          [] "say al".toList [] =
        getSuggestions testApp
          ([] ++ .mk "say".toList [] [] [] [namedArg, textArg, namedArg] [] :: [])
          [] "say al".toList [] ∧
      getSuggestions testApp [.mk "say".toList [] [] [] [namedArg, textArg, namedArg] []]
          [] "say al".toList [] =
        some [⟨"say al".toList, "[message]".toList, "message".toList⟩] :=
  ⟨⟨textArg, by decide, rfl⟩, by decide,
    getSuggestions_named_inert testApp "say".toList [] [] [] [namedArg, textArg, namedArg]
      ⟨textArg, by decide, rfl⟩ [] [] [] [] "say al".toList [],
    by decide⟩

/-! ## The matcher distributes over the command list -/

/-- C19: `getSuggestions` distributes over the command list: on `xs ++ ys` it
returns the suggestions of `xs` followed by those of `ys` (and panics exactly
when one of the two does); so each node contributes on its own, after the
nodes before it and before the nodes after it, and the empty list contributes
nothing. -/
theorem getSuggestions_append (a : App) (xs ys : List AutocompleteData)
    (inputParsed inputToBeParsed roleID : Str) :
    getSuggestions a (xs ++ ys) inputParsed inputToBeParsed roleID =
        (getSuggestions a xs inputParsed inputToBeParsed roleID).bind (fun l1 =>
          (getSuggestions a ys inputParsed inputToBeParsed roleID).map
            (fun l2 => l1 ++ l2)) ∧
      (∀ n : AutocompleteData,
        getSuggestions a (n :: ys) inputParsed inputToBeParsed roleID =
          (getSuggestions a [n] inputParsed inputToBeParsed roleID).bind (fun l1 =>
            (getSuggestions a ys inputParsed inputToBeParsed roleID).map
              (fun l2 => l1 ++ l2))) ∧
      getSuggestions a [] inputParsed inputToBeParsed roleID = some [] := by
  refine ⟨getSuggestions_append_bind a xs ys inputParsed inputToBeParsed roleID, ?_, ?_⟩
  · intro n
    exact getSuggestions_append_bind a [n] ys inputParsed inputToBeParsed roleID
  · unfold getSuggestions
    by_cases hi : Index inputToBeParsed [' '] = -1
    · simp only [hi, if_true, noSpaceLoop]
    · simp only [hi, if_false, commandsLoop]

/-- Two commands `echo` both contribute, in declaration order, and `kill`
between them contributes nothing. -/
theorem getSuggestions_same_trigger :
    getSuggestions testApp [echoCommand, killCommand, echoCommand] [] "echo ".toList [] =
      some [⟨"echo ".toList, "[message]".toList, "message".toList⟩,
            ⟨"echo ".toList, "[message]".toList, "message".toList⟩] := by
  decide

/-! ## The order of the items -/

theorem maxPrefixLoop_mem_congr (inp : Str) (items1 items2 : List AutocompleteStaticListItem)
    (h : ∀ x, x ∈ items1 ↔ x ∈ items2) :
    maxPrefixLoop inp items1 [] = maxPrefixLoop inp items2 [] := by
  by_cases hex : ∃ i ∈ items1, i.Item ++ [' '] <+: inp
  · obtain ⟨i0, hi0, hp0⟩ := hex
    obtain ⟨h1, _, h3⟩ := maxPrefixLoop_spec inp items1 []
    have hlen := h3 i0 hi0 hp0
    rcases h1 with h1 | ⟨i, hi, hp, h1⟩
    · rw [h1] at hlen; simp at hlen
    · have hmax : ∀ j ∈ items1, j.Item ++ [' '] <+: inp → j.Item.length ≤ i.Item.length := by
        intro j hj hpj
        have := h3 j hj hpj
        rw [h1] at this
        simp only [List.length_append, List.length_singleton] at this
        omega
      rw [maxPrefixLoop_longest inp items1 i hi hp hmax,
        maxPrefixLoop_longest inp items2 i ((h i).1 hi) hp
          (fun j hj hpj => hmax j ((h j).2 hj) hpj)]
  · have hno1 : ∀ i ∈ items1, ¬ (i.Item ++ [' '] <+: inp) :=
      fun i hi hp => hex ⟨i, hi, hp⟩
    have hno2 : ∀ i ∈ items2, ¬ (i.Item ++ [' '] <+: inp) :=
      fun i hi hp => hex ⟨i, (h i).2 hi, hp⟩
    rw [maxPrefixLoop_no_match inp items1 hno1, maxPrefixLoop_no_match inp items2 hno2]

/-- C20: the completion pass of `parseListItems` does not depend on the order
of the items: on two item lists that are permutations of each other it returns
the same `found`, `alreadyParsed` and `yetToBeParsed` (and panics on neither);
two items of equal length that both, followed by a space, head the input are
the same string. -/
theorem parseListItems_perm (items1 items2 : List AutocompleteStaticListItem)
    (h : items1.Perm items2) (helpText parsed toBeParsed : Str) :
    (parseListItems items1 helpText parsed toBeParsed).map
          (fun r => (r.1, r.2.1, r.2.2.1)) =
        (parseListItems items2 helpText parsed toBeParsed).map
          (fun r => (r.1, r.2.1, r.2.2.1)) ∧
      (∃ r, parseListItems items1 helpText parsed toBeParsed = some r) ∧
      ∀ i j : AutocompleteStaticListItem,
        i.Item ++ [' '] <+: TrimPrefix toBeParsed [' '] →
        j.Item ++ [' '] <+: TrimPrefix toBeParsed [' '] →
        i.Item.length = j.Item.length → i.Item = j.Item := by
  have hm := maxPrefixLoop_mem_congr (TrimPrefix toBeParsed [' ']) items1 items2
    (fun x => h.mem_iff)
  refine ⟨?_, ?_, ?_⟩
  · simp only [parseListItems, hm]
    split
    · cases sliceTo (TrimPrefix toBeParsed [' '])
          (len (maxPrefixLoop (TrimPrefix toBeParsed [' ']) items2 [])) with
      | none => rfl
      | some c =>
        cases sliceFrom (TrimPrefix toBeParsed [' '])
            (len (maxPrefixLoop (TrimPrefix toBeParsed [' ']) items2 [])) with
        | none => rfl
        | some r => rfl
    · rfl
  · rcases parseListItems_cases items1 helpText parsed toBeParsed with
      ⟨found, hr⟩ | ⟨consumed, remaining, _, _, hr⟩ <;> exact ⟨_, hr⟩
  · intro i j hi hj hlen
    have hp : i.Item ++ [' '] <+: j.Item ++ [' '] :=
      List.prefix_of_prefix_length_le hi hj (by simp; omega)
    have he := hp.eq_of_length (by simp; omega)
    exact List.append_cancel_right he

/-- Witness of C20: the items `a`, `ab` and `ab`, `a` on `ab rest`. -/
theorem parseListItems_perm_witness :
    [listItem "a", listItem "ab"].Perm [listItem "ab", listItem "a"] ∧
      (parseListItems [listItem "a", listItem "ab"] [] "cmd ".toList
          "ab rest".toList).map (fun r => (r.1, r.2.1, r.2.2.1)) =
        (parseListItems [listItem "ab", listItem "a"] [] "cmd ".toList
          "ab rest".toList).map (fun r => (r.1, r.2.1, r.2.2.1)) ∧
      parseListItems [listItem "ab", listItem "a"] [] "cmd ".toList "ab rest".toList =
        some (false, "cmd ab ".toList, "rest".toList, []) :=
  ⟨List.Perm.swap _ _ _,
    (parseListItems_perm [listItem "a", listItem "ab"] [listItem "ab", listItem "a"]
      (List.Perm.swap _ _ _) [] "cmd ".toList "ab rest".toList).1,
    by decide⟩

/-! ## Every suggestion extends the user input -/

theorem head_ne_space_of_noDouble (u x r : Str) (hu : ¬ ([' ', ' '] <:+: u))
    (h : x ++ [' '] ++ r = u) : r.head? ≠ some ' ' := by
  intro hr
  cases r with
  | nil => simp at hr
  | cons y r2 =>
    simp only [List.head?_cons, Option.some.injEq] at hr
    subst hr
    exact hu ⟨x, r2, by rw [← h]; simp⟩

/-- The text parser, complete case, with what separates the token from the
rest: the token ends with a space or the rest does not start with one. -/
theorem parseText_complete_shape (arg : AutocompleteArg) (hint pat : Str)
    (hd : arg.Data = .TextArg hint pat) (parsed toBeParsed p2 t2 : Str)
    (sg : AutocompleteSuggestion)
    (h : parseInputTextArgument arg parsed toBeParsed = some (false, p2, t2, sg)) :
    ∃ consumed, TrimPrefix toBeParsed [' '] = consumed ++ t2 ∧ p2 = parsed ++ consumed ∧
      (t2.head? ≠ some ' ' ∨ ∃ c, consumed = c ++ [' ']) := by
  rcases hin : TrimPrefix toBeParsed [' '] with _ | ⟨x, t⟩
  · rw [parseText_empty arg hint pat hd parsed toBeParsed hin] at h
    simp at h
  · by_cases hx : x = '"'
    · subst hx
      rcases Index_single_cases t '"' with ⟨hq, _⟩ | ⟨w, r, ht, hq, _⟩
      · rw [parseText_quote_open arg hint pat hd parsed toBeParsed t hin hq] at h
        simp at h
      · subst ht
        by_cases hr : r.head? = some ' '
        · obtain ⟨r2, rfl⟩ : ∃ r2, r = ' ' :: r2 := by
            cases r with
            | nil => simp at hr
            | cons y r2 => exact ⟨r2, by simp at hr; rw [hr]⟩
          rw [parseText_quote_closed_space arg hint pat hd parsed toBeParsed w r2 hin hq]
            at h
          simp only [Option.some.injEq, Prod.mk.injEq, true_and] at h
          obtain ⟨rfl, rfl, _⟩ := h
          exact ⟨'"' :: (w ++ ['"', ' ']), by simp, rfl,
            Or.inr ⟨'"' :: (w ++ ['"']), by simp⟩⟩
        · rw [parseText_quote_closed_other arg hint pat hd parsed toBeParsed w r hin hq hr]
            at h
          simp only [Option.some.injEq, Prod.mk.injEq, true_and] at h
          obtain ⟨rfl, rfl, _⟩ := h
          exact ⟨'"' :: (w ++ ['"']), by simp, rfl, Or.inl hr⟩
    · rcases Index_single_cases (x :: t) ' ' with ⟨hs, _⟩ | ⟨w, r, hw, hs, _⟩
      · rw [parseText_word_open arg hint pat hd parsed toBeParsed x t hin hx hs] at h
        simp at h
      · rw [parseText_word_closed arg hint pat hd parsed toBeParsed x t w r hin hx hw hs]
          at h
        simp only [Option.some.injEq, Prod.mk.injEq, true_and] at h
        obtain ⟨rfl, rfl, _⟩ := h
        exact ⟨w ++ [' '], by rw [hw]; simp, rfl, Or.inr ⟨w, rfl⟩⟩

/-- The text parser, incomplete case: the one suggestion is the echoed input. -/
theorem parseText_incomplete_shape (arg : AutocompleteArg) (hint pat : Str)
    (hd : arg.Data = .TextArg hint pat) (parsed toBeParsed p2 t2 : Str)
    (sg : AutocompleteSuggestion)
    (h : parseInputTextArgument arg parsed toBeParsed = some (true, p2, t2, sg)) :
    sg.Suggestion = parsed ++ toBeParsed := by
  rcases parseText_cases arg hint pat hd parsed toBeParsed with
    ⟨_, hr⟩ | ⟨_, consumed, remaining, _, _, hr⟩
  · rw [hr] at h
    simp only [Option.some.injEq, Prod.mk.injEq, true_and] at h
    rw [← h.2.2]
  · rw [hr] at h
    simp at h

/-- The list parser, complete case: the token is an item followed by a
space. -/
theorem parseListItems_complete_shape (items : List AutocompleteStaticListItem)
    (helpText parsed toBeParsed p2 t2 : Str) (sg : List AutocompleteSuggestion)
    (h : parseListItems items helpText parsed toBeParsed = some (false, p2, t2, sg)) :
    ∃ c, TrimPrefix toBeParsed [' '] = c ++ [' '] ++ t2 ∧ p2 = parsed ++ (c ++ [' ']) := by
  rcases (maxPrefixLoop_spec (TrimPrefix toBeParsed [' ']) items []).1 with
    hm | ⟨i, _, hp, hm⟩
  · simp only [parseListItems, hm, ne_eq, not_true_eq_false, if_false,
      Option.some.injEq, Prod.mk.injEq] at h
    exact absurd h.1 (by decide)
  · have hp2 := hp
    obtain ⟨rem, hrem⟩ := hp2
    rw [parseListItems_of_maxPrefix items helpText parsed toBeParsed _ hm (by simp) hp,
      ← hrem] at h
    simp only [List.length_append, List.length_singleton, List.drop_append_eq_append_drop,
      Option.some.injEq, Prod.mk.injEq, true_and] at h
    refine ⟨i.Item, ?_, h.1.symm⟩
    rw [← hrem, ← h.2.1]
    simp

/-- The list parser, incomplete case: the suggestions are the items that
start with the input. -/
theorem parseListItems_incomplete_shape (items : List AutocompleteStaticListItem)
    (helpText parsed toBeParsed p2 t2 : Str) (sg : List AutocompleteSuggestion)
    (h : parseListItems items helpText parsed toBeParsed = some (true, p2, t2, sg)) :
    sg = (items.filter (fun i => decide (TrimPrefix toBeParsed [' '] <+: i.Item))).map
      (fun i => ⟨parsed ++ i.Item, i.Hint, helpText⟩) := by
  rcases parseListItems_cases items helpText parsed toBeParsed with
    ⟨found, hr⟩ | ⟨consumed, remaining, _, _, hr⟩
  · by_cases hm : maxPrefixLoop (TrimPrefix toBeParsed [' ']) items [] = []
    · simp only [parseListItems, hm, ne_eq, not_true_eq_false, if_false, suggestLoop_eq,
        List.nil_append, Option.some.injEq, Prod.mk.injEq, true_and] at h
      exact h.2.2.symm
    · rw [hr] at h
      simp only [parseListItems, ne_eq, hm, not_false_eq_true, if_true] at hr
      cases h1 : sliceTo (TrimPrefix toBeParsed [' '])
          (len (maxPrefixLoop (TrimPrefix toBeParsed [' ']) items [])) with
      | none => simp [h1] at hr
      | some c =>
        cases h2 : sliceFrom (TrimPrefix toBeParsed [' '])
            (len (maxPrefixLoop (TrimPrefix toBeParsed [' ']) items [])) with
        | none => simp [h1, h2] at hr
        | some r => simp [h1, h2] at hr
  · rw [hr] at h
    simp at h

theorem parseListItems_extends (items : List AutocompleteStaticListItem)
    (helpText u parsed toBeParsed : Str) (hu : ¬ ([' ', ' '] <:+: u))
    (hpt : parsed ++ toBeParsed = u) (ht : toBeParsed.head? ≠ some ' ')
    (found : Bool) (p2 t2 : Str) (sg : List AutocompleteSuggestion)
    (hr : parseListItems items helpText parsed toBeParsed = some (found, p2, t2, sg)) :
    (found = true → ∀ s ∈ sg, u <+: s.Suggestion) ∧
      (found = false → p2 ++ t2 = u ∧ t2.head? ≠ some ' ') := by
  have hin := TrimPrefix_space_of_head toBeParsed ht
  constructor
  · rintro rfl s hs
    rw [parseListItems_incomplete_shape items helpText parsed toBeParsed p2 t2 sg hr,
      hin] at hs
    obtain ⟨i, hi, rfl⟩ := List.mem_map.1 hs
    have hpre : toBeParsed <+: i.Item := by
      simpa using (List.mem_filter.1 hi).2
    rw [← hpt]
    exact (List.prefix_append_right_inj parsed).2 hpre
  · rintro rfl
    obtain ⟨c, hc, rfl⟩ :=
      parseListItems_complete_shape items helpText parsed toBeParsed p2 t2 sg hr
    rw [hin] at hc
    have hsum : parsed ++ (c ++ [' ']) ++ t2 = u := by
      rw [← hpt, hc]; simp
    exact ⟨hsum, head_ne_space_of_noDouble u (parsed ++ c) t2 hu (by rw [← hsum]; simp)⟩

theorem parseText_extends (arg : AutocompleteArg) (hint pat : Str)
    (hd : arg.Data = .TextArg hint pat) (u parsed toBeParsed : Str)
    (hu : ¬ ([' ', ' '] <:+: u)) (hpt : parsed ++ toBeParsed = u)
    (ht : toBeParsed.head? ≠ some ' ') (found : Bool) (p2 t2 : Str)
    (sg : AutocompleteSuggestion)
    (hr : parseInputTextArgument arg parsed toBeParsed = some (found, p2, t2, sg)) :
    (found = true → u <+: sg.Suggestion) ∧
      (found = false → p2 ++ t2 = u ∧ t2.head? ≠ some ' ') := by
  have hin := TrimPrefix_space_of_head toBeParsed ht
  constructor
  · rintro rfl
    rw [parseText_incomplete_shape arg hint pat hd parsed toBeParsed p2 t2 sg hr, hpt]
  · rintro rfl
    obtain ⟨consumed, hc, rfl, hsep⟩ :=
      parseText_complete_shape arg hint pat hd parsed toBeParsed p2 t2 sg hr
    rw [hin] at hc
    have hsum : parsed ++ consumed ++ t2 = u := by
      rw [← hpt, hc]; simp
    refine ⟨hsum, ?_⟩
    rcases hsep with h | ⟨c, rfl⟩
    · exact h
    · exact head_ne_space_of_noDouble u (parsed ++ c) t2 hu (by rw [← hsum]; simp)

theorem parseArgument_extends (a : App) (arg : AutocompleteArg) (u parsed toBeParsed : Str)
    (hu : ¬ ([' ', ' '] <:+: u)) (hpt : parsed ++ toBeParsed = u)
    (ht : toBeParsed.head? ≠ some ' ') (found : Bool) (p2 t2 : Str)
    (sg : List AutocompleteSuggestion)
    (hr : parseArgument a arg parsed toBeParsed = some (found, p2, t2, sg)) :
    (found = true → ∀ s ∈ sg, u <+: s.Suggestion) ∧
      (found = false → p2 ++ t2 = u ∧ t2.head? ≠ some ' ') := by
  have hpass : (some (false, parsed, toBeParsed, ([] : List AutocompleteSuggestion)) =
      some (found, p2, t2, sg)) →
      (found = true → ∀ s ∈ sg, u <+: s.Suggestion) ∧
        (found = false → p2 ++ t2 = u ∧ t2.head? ≠ some ' ') := by
    intro h
    simp only [Option.some.injEq, Prod.mk.injEq] at h
    obtain ⟨rfl, rfl, rfl, rfl⟩ := h
    exact ⟨fun h => absurd h (by decide), fun _ => ⟨hpt, ht⟩⟩
  unfold parseArgument at hr
  by_cases hn : arg.Name = []
  · simp only [hn, if_true] at hr
    cases hty : arg.Type_ with
    | TextInput =>
      simp only [hty] at hr
      cases hd : arg.Data with
      | TextArg hint pat =>
        cases hp : parseInputTextArgument arg parsed toBeParsed with
        | none => rw [hp] at hr; simp at hr
        | some r =>
          obtain ⟨f0, q, t, s0⟩ := r
          rw [hp] at hr
          simp only [Option.map_some', Option.some.injEq, Prod.mk.injEq] at hr
          obtain ⟨rfl, rfl, rfl, rfl⟩ := hr
          obtain ⟨h1, h2⟩ := parseText_extends arg hint pat hd u parsed toBeParsed hu hpt
            ht f0 q t s0 hp
          refine ⟨fun hf s hs => ?_, h2⟩
          simp only [hf, if_true, List.mem_singleton] at hs
          rw [hs]
          exact h1 hf
      | StaticListArg items => simp [parseInputTextArgument, hd] at hr
      | DynamicListArg url => simp [parseInputTextArgument, hd] at hr
      | Other => simp [parseInputTextArgument, hd] at hr
    | StaticList =>
      simp only [hty, parseStaticListArgument] at hr
      cases hd : arg.Data with
      | StaticListArg items =>
        simp only [hd] at hr
        exact parseListItems_extends items arg.HelpText u parsed toBeParsed hu hpt ht
          found p2 t2 sg hr
      | TextArg hint pat => simp [hd] at hr
      | DynamicListArg url => simp [hd] at hr
      | Other => simp [hd] at hr
    | DynamicList =>
      simp only [hty, parseDynamicListArgument] at hr
      cases hd : arg.Data with
      | DynamicListArg url =>
        simp only [hd] at hr
        cases hf : a.fetch url with
        | none =>
          simp only [hf] at hr
          exact hpass hr
        | some items =>
          simp only [hf] at hr
          exact parseListItems_extends items arg.HelpText u parsed toBeParsed hu hpt ht
            found p2 t2 sg hr
      | TextArg hint pat => simp [hd] at hr
      | StaticListArg items => simp [hd] at hr
      | Other => simp [hd] at hr
    | Other =>
      simp only [hty] at hr
      exact hpass hr
  · simp only [hn, if_false] at hr
    exact hpass hr

theorem argumentsLoop_extends (a : App) (u : Str) (hu : ¬ ([' ', ' '] <:+: u))
    (args : List AutocompleteArg) (parsed toBeParsed : Str)
    (hpt : parsed ++ toBeParsed = u) (ht : toBeParsed.head? ≠ some ' ')
    (suggestions : List AutocompleteSuggestion)
    (hs : ∀ s ∈ suggestions, u <+: s.Suggestion) (l : List AutocompleteSuggestion)
    (h : argumentsLoop a args parsed toBeParsed suggestions = some l) :
    ∀ s ∈ l, u <+: s.Suggestion := by
  induction args generalizing parsed toBeParsed with
  | nil =>
    simp only [argumentsLoop, Option.some.injEq] at h
    rw [← h]; exact hs
  | cons x rest ih =>
    rw [argumentsLoop_cons] at h
    cases hp : parseArgument a x parsed toBeParsed with
    | none => rw [hp] at h; simp at h
    | some r =>
      obtain ⟨found, p2, t2, sg⟩ := r
      obtain ⟨h1, h2⟩ := parseArgument_extends a x u parsed toBeParsed hu hpt ht found p2
        t2 sg hp
      rw [hp] at h
      cases found with
      | true =>
        simp only [Option.some.injEq] at h
        rw [← h]
        intro s hmem
        rcases List.mem_append.1 hmem with hm | hm
        · exact hs s hm
        · exact h1 rfl s hm
      | false =>
        obtain ⟨h3, h4⟩ := h2 rfl
        exact ih p2 t2 h3 h4 h

theorem noSpaceLoop_extends (a : App) (u inputParsed inputToBeParsed roleID : Str)
    (hpt : inputParsed ++ inputToBeParsed = u) (commands : List AutocompleteData)
    (suggestions : List AutocompleteSuggestion)
    (hs : ∀ s ∈ suggestions, u <+: s.Suggestion) :
    ∀ s ∈ noSpaceLoop a inputParsed inputToBeParsed roleID commands suggestions,
      u <+: s.Suggestion := by
  intro s hmem
  rw [noSpaceLoop_eq] at hmem
  rcases List.mem_append.1 hmem with hm | hm
  · exact hs s hm
  · obtain ⟨c, hc, rfl⟩ := List.mem_map.1 hm
    have hpre : inputToBeParsed <+: c.Trigger := by
      have := (List.mem_filter.1 hc).2
      simp only [decide_eq_true_eq] at this
      exact this.1
    rw [← hpt]
    exact (List.prefix_append_right_inj inputParsed).2 hpre

mutual

theorem commandStep_extends (a : App) (u : Str) (hu : ¬ ([' ', ' '] <:+: u)) :
    ∀ (c : AutocompleteData) (inputParsed inputToBeParsed roleID : Str)
      (_ : inputParsed ++ inputToBeParsed = u) (_ : Index inputToBeParsed [' '] ≠ -1)
      (suggestions : List AutocompleteSuggestion)
      (_ : ∀ s ∈ suggestions, u <+: s.Suggestion) (l : List AutocompleteSuggestion)
      (_ : commandStep a c inputParsed inputToBeParsed roleID
        (Index inputToBeParsed [' ']) suggestions = some l),
      ∀ s ∈ l, u <+: s.Suggestion
  | .mk trigger hint helpText commandRoleID arguments subCommands,
      inputParsed, inputToBeParsed, roleID, hpt, hi, suggestions, hs, l, h => by
    rcases Index_single_cases inputToBeParsed ' ' with ⟨_, h2⟩ | ⟨w, r, h1, _, h3⟩
    · exact absurd h2 hi
    · obtain ⟨s1, s2, s3⟩ := slices_at_first w r ' '
      rw [← h1, ← h3] at s1 s2 s3
      have hsum : inputParsed ++ (w ++ [' ']) ++ r = u := by
        rw [← hpt, h1]; simp
      have hhead : r.head? ≠ some ' ' :=
        head_ne_space_of_noDouble u (inputParsed ++ w) r hu (by rw [← hsum]; simp)
      simp only [commandStep, s1, s2, s3, Option.bind_eq_bind, Option.some_bind] at h
      by_cases ht : trigger = w
      · by_cases hr : roleID ≠ [] ∧ roleID ≠ a.SYSTEM_ADMIN_ROLE_ID ∧
            roleID ≠ commandRoleID
        · rw [if_neg (by simp [ht]), if_pos hr] at h
          simp only [Option.some.injEq] at h
          rw [← h]; exact hs
        · rw [if_neg (by simp [ht]), if_neg hr] at h
          by_cases hl : arguments.length = 0
          · simp only [hl, if_true] at h
            by_cases hi2 : Index r [' '] = -1
            · simp only [hi2, if_true, Option.some_bind, Option.some.injEq] at h
              rw [← h]
              intro s hmem
              rcases List.mem_append.1 hmem with hm | hm
              · exact hs s hm
              · exact noSpaceLoop_extends a u _ r roleID hsum subCommands []
                  (fun _ hx => absurd hx (List.not_mem_nil _)) s hm
            · simp only [hi2, if_false] at h
              cases hsub : commandsLoop a subCommands (inputParsed ++ (w ++ [' '])) r
                  roleID (Index r [' ']) [] with
              | none => rw [hsub] at h; simp at h
              | some sub =>
                rw [hsub] at h
                simp only [Option.some_bind, Option.some.injEq] at h
                rw [← h]
                intro s hmem
                rcases List.mem_append.1 hmem with hm | hm
                · exact hs s hm
                · exact commandsLoop_extends a u hu subCommands
                    (inputParsed ++ (w ++ [' '])) r roleID hsum hi2 []
                    (fun _ hx => absurd hx (List.not_mem_nil _)) sub hsub s hm
          · simp only [hl, if_false] at h
            exact argumentsLoop_extends a u hu arguments _ r hsum hhead suggestions hs l h
      · rw [if_pos ht] at h
        simp only [Option.some.injEq] at h
        rw [← h]; exact hs

theorem commandsLoop_extends (a : App) (u : Str) (hu : ¬ ([' ', ' '] <:+: u)) :
    ∀ (commands : List AutocompleteData) (inputParsed inputToBeParsed roleID : Str)
      (_ : inputParsed ++ inputToBeParsed = u) (_ : Index inputToBeParsed [' '] ≠ -1)
      (suggestions : List AutocompleteSuggestion)
      (_ : ∀ s ∈ suggestions, u <+: s.Suggestion) (l : List AutocompleteSuggestion)
      (_ : commandsLoop a commands inputParsed inputToBeParsed roleID
        (Index inputToBeParsed [' ']) suggestions = some l),
      ∀ s ∈ l, u <+: s.Suggestion
  | [], _, _, _, _, _, suggestions, hs, l, h => by
    simp only [commandsLoop, Option.some.injEq] at h
    rw [← h]; exact hs
  | c :: rest, inputParsed, inputToBeParsed, roleID, hpt, hi, suggestions, hs, l, h => by
    simp only [commandsLoop, Option.bind_eq_bind] at h
    cases hc : commandStep a c inputParsed inputToBeParsed roleID
        (Index inputToBeParsed [' ']) suggestions with
    | none => rw [hc] at h; simp at h
    | some l1 =>
      rw [hc] at h
      simp only [Option.some_bind] at h
      exact commandsLoop_extends a u hu rest inputParsed inputToBeParsed roleID hpt hi l1
        (commandStep_extends a u hu c inputParsed inputToBeParsed roleID hpt hi
          suggestions hs l1 hc) l h

end

/-- C18: every suggestion extends what the user typed: for every command
tree, role and fetch outcome and every user input without two consecutive
spaces, the user input is a prefix of the `Suggestion` text of every suggestion
that `GetSuggestions` returns. -/
theorem GetSuggestions_extends_input (a : App) (commands : List AutocompleteData)
    (userInput roleID : Str) (hu : ¬ ([' ', ' '] <:+: userInput))
    (l : List AutocompleteSuggestion)
    (h : GetSuggestions a commands userInput roleID = some l) :
    ∀ s ∈ l, userInput <+: s.Suggestion := by
  unfold GetSuggestions getSuggestions at h
  by_cases hi : Index userInput [' '] = -1
  · simp only [hi, if_true, Option.some.injEq] at h
    rw [← h]
    exact noSpaceLoop_extends a userInput [] userInput roleID rfl commands []
      (fun _ hx => absurd hx (List.not_mem_nil _))
  · simp only [hi, if_false] at h
    exact commandsLoop_extends a userInput hu commands [] userInput roleID rfl hi []
      (fun _ hx => absurd hx (List.not_mem_nil _)) l h

/-- Witness of C18: the user input `ban "a b" al` on the fixtures. -/
theorem GetSuggestions_extends_input_witness :
    ¬ ([' ', ' '] <:+: "ban \"a b\" al".toList) ∧
      GetSuggestions testApp [echoCommand, banCommand] "ban \"a b\" al".toList [] =
        some [⟨"ban \"a b\" alpha".toList, [], "level".toList⟩,
              ⟨"ban \"a b\" alt".toList, [], "level".toList⟩] ∧
      ∀ s ∈ [(⟨"ban \"a b\" alpha".toList, [], "level".toList⟩ : AutocompleteSuggestion),
              ⟨"ban \"a b\" alt".toList, [], "level".toList⟩],
        "ban \"a b\" al".toList <+: s.Suggestion :=
  ⟨by decide, by decide,
    GetSuggestions_extends_input testApp [echoCommand, banCommand]
      "ban \"a b\" al".toList [] (by decide) _ (by decide)⟩

/-- With two consecutive spaces in the user input a suggestion need not extend
it: on `ban  bob al` the separator before `bob` is dropped. -/
theorem GetSuggestions_double_space :
    GetSuggestions testApp [banCommand] "ban  bob al".toList [] =
      some [⟨"ban bob alpha".toList, [], "level".toList⟩,
            ⟨"ban bob alt".toList, [], "level".toList⟩] := by
  decide

/-! ## The outcomes of a fetch -/

/-- The list parser never returns the state it was given with `found = false`:
when it completes, it has consumed a non-empty token. -/
theorem parseListItems_ne_passThrough (items : List AutocompleteStaticListItem)
    (helpText parsed toBeParsed : Str) :
    parseListItems items helpText parsed toBeParsed ≠
      some (false, parsed, toBeParsed, []) := by
  intro h
  rcases parseListItems_cases items helpText parsed toBeParsed with
    ⟨found, hr⟩ | ⟨consumed, remaining, _, hne, hr⟩
  · rw [hr] at h
    simp at h
  · rw [hr] at h
    simp only [Option.some.injEq, Prod.mk.injEq, true_and] at h
    exact hne (List.append_right_eq_self.1 h.1)

/-- C12, counterexample: a fetch also fails when the response does not decode.
Then `http.Get` returns no error, the decoder returns no item, and
`parseDynamicListArgument` reports `found = true` with `alreadyParsed = parsed
+ toBeParsed`: the state is not passed through, and the node `mute` yields
nothing where, with the argument absent, its text argument would be
suggested. -/
theorem fetch_malformed_counterexample :
    malformedApp.fetch "http://example/users".toList = some [] ∧
      parseDynamicListArgument malformedApp dynamicArg "mute ".toList "bo".toList =
        some (true, "mute bo".toList, [], []) ∧
      parseDynamicListArgument malformedApp dynamicArg "mute ".toList "bo".toList ≠
        some (false, "mute ".toList, "bo".toList, []) ∧
      getSuggestions malformedApp [muteCommand] [] "mute bo".toList [] = some [] ∧
      argumentsLoop malformedApp [textArg] "mute ".toList "bo".toList [] =
        some [⟨"mute bo".toList, "[message]".toList, "message".toList⟩] :=
  ⟨rfl, by decide, by decide, by decide, by decide⟩

/-- C12, amended: the outcomes of the fetch of a dynamic list argument.  When
`http.Get` returns an error, `parseDynamicListArgument` returns `found =
false`, `alreadyParsed = parsed`, `yetToBeParsed = toBeParsed` and no
suggestion, the argument loop runs as if the argument were not in the list, a
node that keeps another argument is matched as the node without this argument,
and on a matching input the node yields what its other arguments yield.  When
the request succeeds, the decoded items go to `parseListItems`, whose result is
never that pass-through; with no item decoded it is `found = true`,
`alreadyParsed = parsed + toBeParsed`, `yetToBeParsed = ""` and no
suggestion. -/
theorem parseDynamicListArgument_fetch_outcomes (a : App) (arg : AutocompleteArg)
    (url : Str) (hd : arg.Data = .DynamicListArg url) :
    (a.fetch url = none →
        (∀ parsed toBeParsed,
          parseDynamicListArgument a arg parsed toBeParsed =
            some (false, parsed, toBeParsed, [])) ∧
        (arg.Type_ = .DynamicList →
          (∀ before after parsed toBeParsed suggestions,
            argumentsLoop a (before ++ arg :: after) parsed toBeParsed suggestions =
              argumentsLoop a (before ++ after) parsed toBeParsed suggestions) ∧
          (∀ trigger hint helpText commandRoleID subCommands before after,
            before ++ after ≠ [] →
            ∀ commandsBefore commandsAfter inputParsed inputToBeParsed roleID,
              getSuggestions a
                  (commandsBefore ++
                    .mk trigger hint helpText commandRoleID (before ++ arg :: after)
                      subCommands :: commandsAfter)
                  inputParsed inputToBeParsed roleID =
                getSuggestions a
                  (commandsBefore ++
                    .mk trigger hint helpText commandRoleID (before ++ after)
                      subCommands :: commandsAfter)
                  inputParsed inputToBeParsed roleID) ∧
          (∀ trigger hint helpText commandRoleID subCommands before after roleID,
            ' ' ∉ trigger →
            (roleID = [] ∨ roleID = a.SYSTEM_ADMIN_ROLE_ID ∨ roleID = commandRoleID) →
            ∀ inputParsed rest,
              getSuggestions a
                  [.mk trigger hint helpText commandRoleID (before ++ arg :: after)
                    subCommands]
                  inputParsed (trigger ++ [' '] ++ rest) roleID =
                argumentsLoop a (before ++ after) (inputParsed ++ trigger ++ [' '])
                  rest []))) ∧
      (∀ items, a.fetch url = some items → ∀ parsed toBeParsed,
        parseDynamicListArgument a arg parsed toBeParsed =
            parseListItems items arg.HelpText parsed toBeParsed ∧
          parseDynamicListArgument a arg parsed toBeParsed ≠
            some (false, parsed, toBeParsed, [])) ∧
      (a.fetch url = some [] → ∀ parsed toBeParsed,
        parseDynamicListArgument a arg parsed toBeParsed =
          some (true, parsed ++ toBeParsed, [], [])) := by
  refine ⟨fun hf => parseDynamicListArgument_fetch_failure a arg url hd hf, ?_, ?_⟩
  · intro items hf parsed toBeParsed
    have h : parseDynamicListArgument a arg parsed toBeParsed =
        parseListItems items arg.HelpText parsed toBeParsed := by
      simp only [parseDynamicListArgument, hd, hf]
    exact ⟨h, by rw [h]; exact parseListItems_ne_passThrough items _ parsed toBeParsed⟩
  · intro hf parsed toBeParsed
    simp only [parseDynamicListArgument, hd, hf, parseListItems, maxPrefixLoop,
      suggestLoop, ne_eq, not_true_eq_false, if_false]

/-- Witness of C12 (amended): the dynamic list argument of the fixtures, with
the request failing in `testApp` and the response not decoding in
`malformedApp`. -/
theorem parseDynamicListArgument_fetch_outcomes_witness :
    dynamicArg.Data = .DynamicListArg "http://example/users".toList ∧
      testApp.fetch "http://example/users".toList = none ∧
      parseDynamicListArgument testApp dynamicArg "mute ".toList "bo".toList =
        some (false, "mute ".toList, "bo".toList, []) ∧
      malformedApp.fetch "http://example/users".toList = some [] ∧
      parseDynamicListArgument malformedApp dynamicArg "mute ".toList "bo".toList =
        some (true, "mute ".toList ++ "bo".toList, [], []) :=
  ⟨rfl, rfl,
    ((parseDynamicListArgument_fetch_outcomes testApp dynamicArg
      "http://example/users".toList rfl).1 rfl).1 "mute ".toList "bo".toList,
    rfl,
    (parseDynamicListArgument_fetch_outcomes malformedApp dynamicArg
      "http://example/users".toList rfl).2.2 rfl "mute ".toList "bo".toList⟩

/-! ## Trees with nil pointers -/

theorem ptr_parseInputTextArgument_toPtrArg (arg : AutocompleteArg)
    (parsed toBeParsed : Str) :
    Ptr.parseInputTextArgument (toPtrArg arg) parsed toBeParsed =
      parseInputTextArgument arg parsed toBeParsed := by
  obtain ⟨name, helpText, ty, required, data⟩ := arg
  cases data <;> rfl

theorem ptr_parseStaticListArgument_toPtrArg (arg : AutocompleteArg)
    (parsed toBeParsed : Str) :
    Ptr.parseStaticListArgument (toPtrArg arg) parsed toBeParsed =
      parseStaticListArgument arg parsed toBeParsed := by
  obtain ⟨name, helpText, ty, required, data⟩ := arg
  cases data <;> rfl

theorem ptr_parseDynamicListArgument_toPtrArg (a : App) (arg : AutocompleteArg)
    (parsed toBeParsed : Str) :
    Ptr.parseDynamicListArgument a (toPtrArg arg) parsed toBeParsed =
      parseDynamicListArgument a arg parsed toBeParsed := by
  obtain ⟨name, helpText, ty, required, data⟩ := arg
  cases data <;> rfl

theorem ptr_argumentsLoop_toPtrArg (a : App) (args : List AutocompleteArg)
    (parsed toBeParsed : Str) (suggestions : List AutocompleteSuggestion) :
    Ptr.argumentsLoop a (args.map (fun arg => some (toPtrArg arg))) parsed toBeParsed
        suggestions =
      argumentsLoop a args parsed toBeParsed suggestions := by
  induction args generalizing parsed toBeParsed with
  | nil => rfl
  | cons x rest ih =>
    rw [List.map_cons, Ptr.argumentsLoop, argumentsLoop]
    have hn : (toPtrArg x).Name = x.Name := rfl
    have hty : (toPtrArg x).Type_ = x.Type_ := rfl
    rw [hn, hty]
    by_cases hname : x.Name = []
    · simp only [hname, if_true]
      cases x.Type_ with
      | TextInput =>
        simp only [ptr_parseInputTextArgument_toPtrArg]
        cases parseInputTextArgument x parsed toBeParsed with
        | none => rfl
        | some r =>
          obtain ⟨found, p, t, sg⟩ := r
          cases found with
          | true => rfl
          | false => exact ih p t
      | StaticList =>
        simp only [ptr_parseStaticListArgument_toPtrArg]
        cases parseStaticListArgument x parsed toBeParsed with
        | none => rfl
        | some r =>
          obtain ⟨found, p, t, sg⟩ := r
          cases found with
          | true => rfl
          | false => exact ih p t
      | DynamicList =>
        simp only [ptr_parseDynamicListArgument_toPtrArg]
        cases parseDynamicListArgument a x parsed toBeParsed with
        | none => rfl
        | some r =>
          obtain ⟨found, p, t, sg⟩ := r
          cases found with
          | true => rfl
          | false => exact ih p t
      | Other => exact ih parsed toBeParsed
    · simp only [hname, if_false]
      exact ih parsed toBeParsed

theorem ptr_noSpaceLoop_toPtrList (a : App) (inputParsed inputToBeParsed roleID : Str)
    (commands : List AutocompleteData) (suggestions : List AutocompleteSuggestion) :
    Ptr.noSpaceLoop a inputParsed inputToBeParsed roleID (toPtrList commands)
        suggestions =
      some (noSpaceLoop a inputParsed inputToBeParsed roleID commands suggestions) := by
  induction commands generalizing suggestions with
  | nil => rfl
  | cons c rest ih =>
    cases c with
    | mk trigger hint helpText commandRoleID arguments subCommands =>
      simp only [toPtrList, toPtrNode, Ptr.noSpaceLoop, noSpaceLoop,
        AutocompleteData.Trigger, AutocompleteData.RoleID, AutocompleteData.Hint,
        AutocompleteData.HelpText, ih]
      split <;> rfl

mutual

theorem ptr_commandStep_toPtrNode (a : App) :
    ∀ (c : AutocompleteData) (inputParsed inputToBeParsed roleID : Str) (index : Int)
      (suggestions : List AutocompleteSuggestion),
      Ptr.commandStep a (toPtrNode c) inputParsed inputToBeParsed roleID index
          suggestions =
        commandStep a c inputParsed inputToBeParsed roleID index suggestions
  | .mk trigger hint helpText commandRoleID arguments subCommands,
      inputParsed, inputToBeParsed, roleID, index, suggestions => by
    simp only [toPtrNode, Ptr.commandStep, commandStep, List.length_map,
      ptr_argumentsLoop_toPtrArg, ptr_noSpaceLoop_toPtrList,
      ptr_commandsLoop_toPtrList a subCommands]

theorem ptr_commandsLoop_toPtrList (a : App) :
    ∀ (commands : List AutocompleteData) (inputParsed inputToBeParsed roleID : Str)
      (index : Int) (suggestions : List AutocompleteSuggestion),
      Ptr.commandsLoop a (toPtrList commands) inputParsed inputToBeParsed roleID index
          suggestions =
        commandsLoop a commands inputParsed inputToBeParsed roleID index suggestions
  | [], _, _, _, _, _ => by simp only [toPtrList, Ptr.commandsLoop, commandsLoop]
  | c :: rest, inputParsed, inputToBeParsed, roleID, index, suggestions => by
    simp only [toPtrList, Ptr.commandsLoop, commandsLoop,
      ptr_commandStep_toPtrNode a c, ptr_commandsLoop_toPtrList a rest]

end

/-- On a tree without a nil pointer the embedding over pointers and the
embedding over values are the same function. -/
theorem ptr_getSuggestions_toPtrList (a : App) (commands : List AutocompleteData)
    (inputParsed inputToBeParsed roleID : Str) :
    Ptr.getSuggestions a (toPtrList commands) inputParsed inputToBeParsed roleID =
      getSuggestions a commands inputParsed inputToBeParsed roleID := by
  simp only [Ptr.getSuggestions, getSuggestions, ptr_noSpaceLoop_toPtrList,
    ptr_commandsLoop_toPtrList]

theorem ptr_arg_value (x : Ptr.AutocompleteArg) (h : Ptr.payloadNonNil x = true) :
    ∃ v : AutocompleteArg, toPtrArg v = x ∧
      (Ptr.kindOk x = true → argWellFormed v = true) := by
  obtain ⟨name, helpText, ty, required, data⟩ := x
  cases data with
  | TextArg target =>
    cases target with
    | none => simp [Ptr.payloadNonNil] at h
    | some tp =>
      refine ⟨⟨name, helpText, ty, required, .TextArg tp.1 tp.2⟩, rfl, ?_⟩
      cases ty <;> exact id
  | StaticListArg target =>
    cases target with
    | none => simp [Ptr.payloadNonNil] at h
    | some items =>
      refine ⟨⟨name, helpText, ty, required, .StaticListArg items⟩, rfl, ?_⟩
      cases ty <;> exact id
  | DynamicListArg target =>
    cases target with
    | none => simp [Ptr.payloadNonNil] at h
    | some url =>
      refine ⟨⟨name, helpText, ty, required, .DynamicListArg url⟩, rfl, ?_⟩
      cases ty <;> exact id
  | Other =>
    refine ⟨⟨name, helpText, ty, required, .Other⟩, rfl, ?_⟩
    cases ty <;> exact id

theorem ptr_args_value (args : List (Option Ptr.AutocompleteArg))
    (h : args.all (fun x => match x with
      | none => false
      | some arg => Ptr.payloadNonNil arg) = true) :
    ∃ vs : List AutocompleteArg, vs.map (fun arg => some (toPtrArg arg)) = args ∧
      (args.all (fun x => match x with
        | none => true
        | some arg => Ptr.kindOk arg) = true → vs.all argWellFormed = true) := by
  induction args with
  | nil => exact ⟨[], rfl, fun _ => rfl⟩
  | cons x rest ih =>
    simp only [List.all_cons, Bool.and_eq_true] at h
    obtain ⟨vs, hvs, hk⟩ := ih h.2
    cases x with
    | none => exact absurd h.1 (by decide)
    | some arg =>
      obtain ⟨v, hv, hkv⟩ := ptr_arg_value arg h.1
      refine ⟨v :: vs, by simp only [List.map_cons, hv, hvs], ?_⟩
      intro hall
      simp only [List.all_cons, Bool.and_eq_true] at hall ⊢
      exact ⟨hkv hall.1, hk hall.2⟩

mutual

theorem ptr_node_value :
    ∀ (c : Ptr.AutocompleteData) (_ : Ptr.nonNilNode c = true),
      ∃ n : AutocompleteData, toPtrNode n = c ∧
        (Ptr.kindsOkNode c = true → wellFormedNode n = true)
  | .nil, h => absurd h (by decide)
  | .ref trigger hint helpText commandRoleID arguments subCommands, h => by
    simp only [Ptr.nonNilNode, Bool.and_eq_true] at h
    obtain ⟨vs, hvs, hk⟩ := ptr_args_value arguments h.1
    obtain ⟨subs, hsubs, hks⟩ := ptr_list_value subCommands h.2
    refine ⟨.mk trigger hint helpText commandRoleID vs subs, ?_, ?_⟩
    · simp only [toPtrNode, hvs, hsubs]
    · intro hall
      simp only [Ptr.kindsOkNode, Bool.and_eq_true] at hall
      simp only [wellFormedNode, Bool.and_eq_true]
      exact ⟨hk hall.1, hks hall.2⟩

theorem ptr_list_value :
    ∀ (commands : List Ptr.AutocompleteData) (_ : Ptr.nonNilList commands = true),
      ∃ cs : List AutocompleteData, toPtrList cs = commands ∧
        (Ptr.kindsOkList commands = true → wellFormedList cs = true)
  | [], _ => ⟨[], rfl, fun _ => rfl⟩
  | c :: rest, h => by
    simp only [Ptr.nonNilList, Bool.and_eq_true] at h
    obtain ⟨n, hn, hkn⟩ := ptr_node_value c h.1
    obtain ⟨cs, hcs, hkc⟩ := ptr_list_value rest h.2
    refine ⟨n :: cs, by simp only [toPtrList, hn, hcs], ?_⟩
    intro hall
    simp only [Ptr.kindsOkList, Bool.and_eq_true] at hall
    simp only [wellFormedList, Bool.and_eq_true]
    exact ⟨hkn hall.1, hkc hall.2⟩

end

/-- C15, counterexample: trees in which every argument's payload has the kind
its `Type` declares, on which `GetSuggestions` panics: a command list that
holds a nil command (on an input without and with a space), a command `echo`
whose argument list holds a nil argument, and a command `echo` whose text
argument holds a nil `*AutocompleteTextArg`. -/
theorem nil_pointer_counterexample :
    Ptr.kindsOkList [.nil] = true ∧
      Ptr.GetSuggestions testApp [.nil] "ech".toList [] = none ∧
      Ptr.GetSuggestions testApp [.nil] "echo hello".toList [] = none ∧
      Ptr.kindsOkList [.ref "echo".toList [] [] [] [none] []] = true ∧
      Ptr.GetSuggestions testApp [.ref "echo".toList [] [] [] [none] []]
        "echo hello".toList [] = none ∧
      Ptr.kindsOkList
        [.ref "echo".toList [] [] [] [some ⟨[], [], .TextInput, true, .TextArg none⟩] []] =
          true ∧
      Ptr.GetSuggestions testApp
        [.ref "echo".toList [] [] [] [some ⟨[], [], .TextInput, true, .TextArg none⟩] []]
        "echo hello".toList [] = none :=
  ⟨by decide, by decide, by decide, by decide, by decide, by decide, by decide⟩

/-- C15, amended: on a command tree in which no node pointer, argument pointer
or payload pointer is nil and every argument's payload has the kind its `Type`
declares, `getSuggestions` and `GetSuggestions` return a suggestion list for
every input, role and fetch outcome: no slice or index leaves its string, no
type assertion fails and no nil pointer is dereferenced.  The text parser on a
non-nil text payload and the list parser on any item list return on every
state as well. -/
theorem ptr_getSuggestions_never_panics (a : App)
    (commands : List Ptr.AutocompleteData) (hnil : Ptr.nonNilList commands = true)
    (hkind : Ptr.kindsOkList commands = true) :
    (∀ inputParsed inputToBeParsed roleID,
        ∃ l, Ptr.getSuggestions a commands inputParsed inputToBeParsed roleID = some l) ∧
      (∀ userInput roleID,
        ∃ l, Ptr.GetSuggestions a commands userInput roleID = some l) ∧
      (∀ (arg : Ptr.AutocompleteArg) hint pat parsed toBeParsed,
        arg.Data = .TextArg (some (hint, pat)) →
        ∃ r, Ptr.parseInputTextArgument arg parsed toBeParsed = some r) ∧
      ∀ items helpText parsed toBeParsed,
        ∃ r, parseListItems items helpText parsed toBeParsed = some r := by
  obtain ⟨cs, hcs, hk⟩ := ptr_list_value commands hnil
  have hwf := hk hkind
  have hg : ∀ inputParsed inputToBeParsed roleID,
      ∃ l, Ptr.getSuggestions a commands inputParsed inputToBeParsed roleID = some l := by
    intro inputParsed inputToBeParsed roleID
    rw [← hcs, ptr_getSuggestions_toPtrList]
    exact (getSuggestions_never_panics a cs hwf).1 inputParsed inputToBeParsed roleID
  refine ⟨hg, fun userInput roleID => hg [] userInput roleID, ?_,
    (getSuggestions_never_panics a cs hwf).2.2.2⟩
  intro arg hint pat parsed toBeParsed hd
  have harg : arg = toPtrArg ⟨arg.Name, arg.HelpText, arg.Type_, arg.Required,
      .TextArg hint pat⟩ := by
    obtain ⟨name, helpText, ty, required, data⟩ := arg
    simp only at hd
    subst hd
    rfl
  rw [harg, ptr_parseInputTextArgument_toPtrArg]
  exact (getSuggestions_never_panics a cs hwf).2.2.1 _ hint pat parsed toBeParsed rfl

/-- Witness of C15 (amended): the command `ban` with every pointer set, on an
input with a double space and a quoted text. -/
theorem ptr_getSuggestions_never_panics_witness :
    Ptr.nonNilList [banCommandPtr] = true ∧ Ptr.kindsOkList [banCommandPtr] = true ∧
      (∃ l, Ptr.GetSuggestions testApp [banCommandPtr] "ban  \"a b\"x al".toList [] =
        some l) ∧
      Ptr.GetSuggestions testApp [banCommandPtr] "ban \"a b\" al".toList [] =
        some [⟨"ban \"a b\" alpha".toList, [], "level".toList⟩,
              ⟨"ban \"a b\" alt".toList, [], "level".toList⟩] :=
  ⟨by decide, by decide,
    (ptr_getSuggestions_never_panics testApp [banCommandPtr] (by decide)
      (by decide)).2.1 "ban  \"a b\"x al".toList [],
    by decide⟩

end CommandAutocomplete
